import Mathlib

/-!
A shallow embedding of the synchronization core of libdbusmenu's client
(`libdbusmenu-glib/client.c`) together with proofs about its behavior.

The embedding keeps the C source's structure and names:

* the property-request batcher (`find_listener`, `get_properties_globber`,
  `get_properties_idle`, `get_properties_flush`, `get_properties_callback`);
* the listener-notification fragment of `dbusmenu_client_dispose`;
* the per-item property callbacks (`menuitem_get_properties_cb`,
  `menuitem_get_properties_replace_cb`);
* the tree reconciler (`parse_node_get_id`, `parse_layout_new_child`,
  `parse_layout_update`, `parse_layout_xml`, `parse_layout`);
* the top-level refresh machinery (`update_layout`, `layout_update`,
  `update_layout_cb`) as a state machine, plus a small client/server system
  model used to reason about revision bookkeeping.

Stateful C code becomes explicit state passing; GObject callbacks become
event lists; fallible paths return `Option`/`Except`.  Helpers living in
`menuitem.c` (not among the sources) are modelled from the specification and
are marked as such in their doc comments.
-/

namespace Dbusmenu

/-- `MAX_PROPERTIES_TO_QUEUE` from client.c: how many property requests are
queued before the message is sent on the bus. -/
def MAX_PROPERTIES_TO_QUEUE : Nat := 100

/-- A typed property value (string / int / bool), standing in for `GVariant`. -/
inductive PropValue where
  | str (s : String)
  | int (i : Int)
  | bool (b : Bool)
deriving Repr, DecidableEq

/-- `properties_listener_t`: one queued property request.  The `token` field
stands for the C `(callback, user_data)` pair, identifying whose callback is
invoked. -/
structure Listener where
  id : Int
  token : Nat
  replied : Bool
deriving Repr, DecidableEq

/-- The error value handed to a properties callback. -/
inductive CbError where
  | transport (code : Nat)
  | propsUnavailable
  | shutdown
deriving Repr, DecidableEq

/-- An invocation of a properties callback (`properties_func`). -/
inductive CbEvent where
  | errorCb (token : Nat) (err : CbError)
  | deliver (token : Nat) (props : List (String × PropValue))
  | unknownListener (id : Int)
  | alreadyReplied (id : Int)
deriving Repr, DecidableEq

/-- The iteration of `find_listener`: once `index` reaches the array length
the search fails; otherwise the element at `index` is compared and the
search continues at `index + 1`.  The walk from position `index` onwards is
expressed structurally on the corresponding suffix of the array. -/
def find_listener_go : List Listener → Nat → Int → Option Nat
  | [], _, _ => none
  | retval :: rest, index, id =>
    if retval.id = id then some index else find_listener_go rest (index + 1) id

/-- `find_listener` from client.c: search the listener array from `index` on
for one whose id matches; returns its position (the C returns a pointer into
the array). -/
def find_listener (listeners : List Listener) (index : Nat) (id : Int) :
    Option Nat :=
  find_listener_go (listeners.drop index) index id

/-- The fields of `DbusmenuClientPrivate` that drive the property batcher:
the queued property-name list, the queued listeners and whether an idle
flush is scheduled (`delayed_idle`). -/
structure BatchState where
  delayed_property_list : List String
  delayed_property_listeners : List Listener
  delayed_idle : Bool
deriving Repr, DecidableEq

/-- Externally observable actions of the batcher. -/
inductive BatchEvent where
  | dupError (token : Nat)
  | groupCall (ids : List Int)
  | idleNoListeners
deriving Repr, DecidableEq

/-- `get_properties_idle` from client.c: issue one `GetGroupProperties` call
carrying every queued listener's id, then start fresh lists and clear the
idle marker.  With no listeners it only warns. -/
def get_properties_idle (st : BatchState) : BatchState × List BatchEvent :=
  if st.delayed_property_listeners.length = 0 then
    (st, [BatchEvent.idleNoListeners])
  else
    (⟨[], [], false⟩,
     [BatchEvent.groupCall (st.delayed_property_listeners.map (fun l => l.id))])

/-- `get_properties_flush` from client.c: if an idle flush is scheduled,
remove it and run `get_properties_idle` right away. -/
def get_properties_flush (st : BatchState) : BatchState × List BatchEvent :=
  if st.delayed_idle = false then
    (st, [])
  else
    get_properties_idle { st with delayed_idle := false }

/-- `get_properties_globber` from client.c: queue one property request.  A
request whose id is already queued is answered at once with an
"ID already queued" error.  Otherwise the listener is appended, an idle
flush is scheduled if none is, and reaching `MAX_PROPERTIES_TO_QUEUE`
listeners triggers an immediate flush. -/
def get_properties_globber (st : BatchState) (id : Int) (token : Nat)
    (properties : Option (List String)) : BatchState × List BatchEvent :=
  if (find_listener st.delayed_property_listeners 0 id).isSome then
    (st, [BatchEvent.dupError token])
  else
    let dpl : List String :=
      match properties with
      | none => []
      | some [] => []
      | some _ => st.delayed_property_list
    let listeners := st.delayed_property_listeners ++ [⟨id, token, false⟩]
    let st' : BatchState := ⟨dpl, listeners, true⟩
    if listeners.length = MAX_PROPERTIES_TO_QUEUE then
      get_properties_flush st'
    else
      (st', [])

/-- Mark the listener at one position as replied. -/
def set_replied : List Listener → Nat → List Listener
  | [], _ => []
  | l :: rest, 0 => { l with replied := true } :: rest
  | l :: rest, n + 1 => l :: set_replied rest n

/-- One element of a `GetGroupProperties` reply: either a well-typed
`(id, property-map)` pair or a value of the wrong signature (warned about
and skipped by the C code). -/
inductive ReturnItem where
  | malformed
  | pair (id : Int) (props : List (String × PropValue))
deriving Repr, DecidableEq

/-- The demultiplexing loop inside `get_properties_callback`: walk the reply
items, route each pair to the first listener with that id (marking it
replied), warn on ids nobody is waiting for and on duplicate replies. -/
def process_returns (listeners : List Listener) :
    List ReturnItem → List Listener × List CbEvent
  | [] => (listeners, [])
  | ReturnItem.malformed :: rest => process_returns listeners rest
  | ReturnItem.pair id props :: rest =>
    match find_listener listeners 0 id with
    | none =>
      let r := process_returns listeners rest
      (r.1, CbEvent.unknownListener id :: r.2)
    | some idx =>
      let listener := listeners.getD idx ⟨0, 0, false⟩
      if listener.replied = false then
        let r := process_returns (set_replied listeners idx) rest
        (r.1, CbEvent.deliver listener.token props :: r.2)
      else
        let r := process_returns listeners rest
        (r.1, CbEvent.alreadyReplied id :: r.2)

/-- `get_properties_callback` from client.c: on a transport-level failure
every listener's callback receives that error; on success each returned
pair is routed to its listener and every listener still unreplied
afterwards receives an "Error getting properties for ID" error. -/
def get_properties_callback (result : Except Nat (List ReturnItem))
    (listeners : List Listener) : List Listener × List CbEvent :=
  match result with
  | Except.error e =>
    (listeners, listeners.map (fun l => CbEvent.errorCb l.token (CbError.transport e)))
  | Except.ok items =>
    let r := process_returns listeners items
    (r.1,
     r.2 ++ (r.1.filter (fun l => !l.replied)).map
       (fun l => CbEvent.errorCb l.token CbError.propsUnavailable))

/-- The listener-notification fragment of `dbusmenu_client_dispose` in
client.c.  The C guards the loop that is meant to hand every unreplied
listener a "DbusmenuClient Shutdown" error with
`if (priv->delayed_property_listeners == NULL)`: when the array exists the
block is skipped entirely and no callback runs (`some []`); when the array
is null the block is entered and immediately dereferences the null array
(`none`, undefined behavior). -/
def dispose_listener_callbacks :
    Option (List Listener) → Option (List CbEvent)
  | some _ => some []
  | none => none

/-- Modelled from the spec: the teardown behavior the specification (and the
code's own comment "Making sure all the callbacks get called") describes —
every listener still awaiting a reply receives a synthetic Shutdown error. -/
def dispose_listener_callbacks_spec :
    Option (List Listener) → Option (List CbEvent)
  | some ls =>
    some ((ls.filter (fun l => !l.replied)).map
      (fun l => CbEvent.errorCb l.token CbError.shutdown))
  | none => some []

/-- An item's property map, as an association list with unique keys. -/
abbrev PropMap := List (String × PropValue)

/-- Modelled from the spec: `dbusmenu_menuitem_property_set_variant`
(menuitem.c, not among the sources) sets one key to a value; "keys unique". -/
def property_set_variant (m : PropMap) (key : String) (value : PropValue) :
    PropMap :=
  (List.filter (fun kv => kv.1 ≠ key) m) ++ [(key, value)]

/-- Modelled from the spec: `dbusmenu_menuitem_property_remove` (menuitem.c,
not among the sources) deletes one key from the mapping. -/
def property_remove (m : PropMap) (key : String) : PropMap :=
  List.filter (fun kv => kv.1 ≠ key) m

/-- Modelled from the spec: `dbusmenu_menuitem_properties_list` (menuitem.c,
not among the sources) lists the keys currently present. -/
def properties_list (m : PropMap) : List String :=
  List.map (fun kv => kv.1) m

/-- `menuitem_get_properties_cb` from client.c: on error only warn; on
success copy every returned key/value pair into the item. -/
def menuitem_get_properties_cb
    (result : Except Nat (List (String × PropValue))) (item : PropMap) :
    PropMap :=
  match result with
  | Except.error _ => item
  | Except.ok properties =>
    properties.foldl (fun m kv => property_set_variant m kv.1 kv.2) item

/-- `menuitem_get_properties_replace_cb` from client.c: refresh the
properties of a recycled item.  The removal loop's condition is
`current_props != NULL && have_error == FALSE`, so on error nothing is
removed and the inner callback is not invoked. -/
def menuitem_get_properties_replace_cb
    (result : Except Nat (List (String × PropValue))) (item : PropMap) :
    PropMap :=
  let have_error :=
    match result with
    | Except.error _ => true
    | Except.ok _ => false
  let current_props := properties_list item
  let item' := if have_error then item else current_props.foldl property_remove item
  if have_error = false then menuitem_get_properties_cb result item' else item'

/-- A node of the XML layout description fetched over the bus: either a
proper `menu` element carrying an id and child elements, or anything else
(comments, foreign elements) which `parse_node_get_id` rejects. -/
inductive XmlNode where
  | junk
  | menu (id : Int) (children : List XmlNode)

/-- `parse_node_get_id` from client.c: the id of a `menu` element, `-1` for
anything that is not a well-formed `menu` node. -/
def parse_node_get_id : XmlNode → Int
  | XmlNode.junk => -1
  | XmlNode.menu id _ => id

/-- `DbusmenuMenuitem`: identity (`tag` stands for the object instance, the
pointer identity in C), the remote id, and the ordered children.  The
property map is tracked separately by the property callbacks. -/
inductive Menuitem where
  | mk (tag : Nat) (id : Int) (children : List Menuitem)

/-- The instance identity of a menu item. -/
def Menuitem.tag : Menuitem → Nat
  | Menuitem.mk t _ _ => t

/-- The remote id of a menu item. -/
def Menuitem.id : Menuitem → Int
  | Menuitem.mk _ i _ => i

/-- The ordered children of a menu item. -/
def Menuitem.children : Menuitem → List Menuitem
  | Menuitem.mk _ _ c => c

mutual
/-- Every instance tag occurring in a subtree. -/
def Menuitem.tags : Menuitem → List Nat
  | Menuitem.mk t _ cs => t :: Menuitem.tagsList cs

/-- Every instance tag occurring in a forest. -/
def Menuitem.tagsList : List Menuitem → List Nat
  | [] => []
  | c :: cs => Menuitem.tags c ++ Menuitem.tagsList cs
end

/-- Side effects of reconciliation, in program order: a scheduled initial
property fetch for a freshly built item (`get_properties_globber` with
`menuitem_get_properties_new_cb`), a scheduled property refresh for a
recycled item (`menuitem_get_properties_replace_cb`), the deletion of an
item that the new layout no longer contains, and the early property flush
done under the first level of the tree. -/
inductive Effect where
  | fetchNew (id : Int) (tag : Nat)
  | fetchRefresh (id : Int) (tag : Nat)
  | deleted (tag : Nat)
  | flushProps
deriving Repr, DecidableEq

/-- `parse_layout_new_child` from client.c: build a fresh item for `id` and
queue its initial property fetch.  `fresh` is the next unused instance
tag. -/
def parse_layout_new_child (id : Int) (fresh : Nat) :
    Menuitem × Nat × Effect :=
  (Menuitem.mk fresh id [], fresh + 1, Effect.fetchNew id fresh)

/-- `parse_layout_update` from client.c: queue a property refresh for an
item recycled by a layout update. -/
def parse_layout_update (item : Menuitem) : Effect :=
  Effect.fetchRefresh item.id item.tag

/-- Modelled from the spec: `dbusmenu_menuitem_child_add_position`
(menuitem.c, not among the sources) inserts a child at an explicit
position — "order … must be preserved/replaceable by explicit position". -/
def child_add_position (l : List Menuitem) (mi : Menuitem) (pos : Nat) :
    List Menuitem :=
  l.insertIdx pos mi

/-- Modelled from the spec: `dbusmenu_menuitem_child_reorder` (menuitem.c,
not among the sources) moves an existing child (identified here by its
instance tag) to an explicit position. -/
def child_reorder (l : List Menuitem) (t : Nat) (pos : Nat) :
    List Menuitem :=
  match l.find? (fun mi => mi.tag == t) with
  | none => l
  | some mi => (l.eraseP (fun c => c.tag == t)).insertIdx pos mi

/-- Modelled from the spec: `dbusmenu_menuitem_child_delete` (menuitem.c,
not among the sources) detaches a child from its parent. -/
def child_delete (l : List Menuitem) (t : Nat) : List Menuitem :=
  l.eraseP (fun c => c.tag == t)

/-- The first loop of `parse_layout_xml` from client.c: walk the XML
children (skipping nodes without a valid id, which do not advance the
position), recycling an existing child with a matching id — removing it
from the `oldchildren` work list, reordering it to the current position and
queueing a property refresh — and otherwise building a new child at the
current position with its initial fetch queued.  Returns the next fresh
tag, the unmatched `oldchildren`, the updated child list and the queued
effects. -/
def parse_layout_children_loop :
    List XmlNode → Nat → Nat → List Menuitem → List Menuitem →
    Nat × List Menuitem × List Menuitem × List Effect
  | [], _, fresh, oldchildren, cur => (fresh, oldchildren, cur, [])
  | c :: rest, position, fresh, oldchildren, cur =>
    let childid := parse_node_get_id c
    if childid < 0 then
      parse_layout_children_loop rest position fresh oldchildren cur
    else
      match oldchildren.find? (fun mi => mi.id == childid) with
      | some cs_mi =>
        let oldchildren' := oldchildren.eraseP (fun mi => mi.tag == cs_mi.tag)
        let cur' := child_reorder cur cs_mi.tag position
        let r := parse_layout_children_loop rest (position + 1) fresh oldchildren' cur'
        (r.1, r.2.1, r.2.2.1, Effect.fetchRefresh childid cs_mi.tag :: r.2.2.2)
      | none =>
        let nc := parse_layout_new_child childid fresh
        let cur' := child_add_position cur nc.1 position
        let r := parse_layout_children_loop rest (position + 1) nc.2.1 oldchildren cur'
        (r.1, r.2.1, r.2.2.1, nc.2.2 :: r.2.2.2)

mutual
/-- `parse_layout_xml` from client.c: reconcile one existing item against
one XML node.  Fails (returns `none`, before any mutation) when the node
has no valid id or its id disagrees with the item's.  Otherwise: run the
child loop, delete every unmatched old child, flush the property queue when
the parent is the root, and recurse pairwise into the children. -/
def parse_layout_xml (fresh : Nat) (node : XmlNode) (item : Menuitem)
    (parent : Option Int) : Option (Menuitem × Nat × List Effect) :=
  match node with
  | XmlNode.junk => none
  | XmlNode.menu id kids =>
    if id < 0 then none
    else if id ≠ item.id then none
    else
      let r1 := parse_layout_children_loop kids 0 fresh item.children item.children
      let cur2 := r1.2.1.foldl (fun c mi => child_delete c mi.tag) r1.2.2.1
      let effsDel := r1.2.1.map (fun mi => Effect.deleted mi.tag)
      let effsFlush : List Effect :=
        match parent with
        | some pid => if pid = 0 then [Effect.flushProps] else []
        | none => []
      let r2 := parse_layout_recurse r1.1 kids cur2 item.id
      some (Menuitem.mk item.tag item.id r2.2.1,
            r2.1, r1.2.2.2 ++ effsDel ++ effsFlush ++ r2.2.2)

/-- The recursion loop at the end of `parse_layout_xml`: pair the XML
children that carry a valid id with the reconciled child items in order and
recurse into each pair; a recursive failure leaves that child as it is (the
C discards the recursive return value and the failure paths precede any
mutation). -/
def parse_layout_recurse (fresh : Nat) (xmlKids : List XmlNode)
    (mis : List Menuitem) (parentId : Int) :
    Nat × List Menuitem × List Effect :=
  match xmlKids, mis with
  | [], rest => (fresh, rest, [])
  | _ :: _, [] => (fresh, [], [])
  | c :: rest, mi :: mrest =>
    if parse_node_get_id c < 0 then
      parse_layout_recurse fresh rest (mi :: mrest) parentId
    else
      match parse_layout_xml fresh c mi (some parentId) with
      | none =>
        let r := parse_layout_recurse fresh rest mrest parentId
        (r.1, mi :: r.2.1, r.2.2)
      | some (mi', fresh', effs) =>
        let r := parse_layout_recurse fresh' rest mrest parentId
        (r.1, mi' :: r.2.1, effs ++ r.2.2)
end

/-- The ids of the XML children that `parse_layout_children_loop` accepts,
in remote order. -/
def xmlValidIds (kids : List XmlNode) : List Int :=
  (kids.filter (fun c => !(parse_node_get_id c < 0))).map parse_node_get_id

/-- `parse_layout` from client.c: reconcile the whole tree.  With no
current root a fresh root item for id 0 is built first (initial fetch
queued); otherwise the existing root gets a property refresh queued.  The
returned flag tells whether a `root-changed` signal fires, which happens
exactly when the root object after reconciliation is a different instance
than before (the C compares the two pointers). -/
def parse_layout (root : Option Menuitem) (fresh : Nat) (xmlroot : XmlNode) :
    Option Menuitem × Nat × List Effect × Bool :=
  match root with
  | none =>
    let nc := parse_layout_new_child 0 fresh
    match parse_layout_xml nc.2.1 xmlroot nc.1 none with
    | none => (none, nc.2.1, [nc.2.2], false)
    | some (item, fresh', effs) => (some item, fresh', nc.2.2 :: effs, true)
  | some oldroot =>
    let upd := parse_layout_update oldroot
    match parse_layout_xml fresh xmlroot oldroot none with
    | none => (none, fresh, [upd], true)
    | some (item, fresh', effs) =>
      (some item, fresh', upd :: effs, item.tag != oldroot.tag)

/-- The fields of `DbusmenuClientPrivate` that drive the top-level refresh:
the root item, the fresh-tag allocator standing for object allocation, the
two revision counters, whether a `GetLayout` call's cancellable is held
(`layoutcall`), and whether the menu proxy exists and currently has a name
owner. -/
structure ClientPriv where
  root : Option Menuitem
  fresh : Nat
  current_revision : Nat
  my_revision : Nat
  layoutcall : Bool
  menuproxy : Bool
  name_owner : Bool

/-- `update_layout` from client.c: issue a `GetLayout` call unless the
proxy is missing, the remote name has no owner, or a layout call is already
outstanding.  The returned flag tells whether a call was issued. -/
def update_layout (priv : ClientPriv) : ClientPriv × Bool :=
  if priv.menuproxy = false then (priv, false)
  else if priv.name_owner = false then (priv, false)
  else if priv.layoutcall = true then (priv, false)
  else ({ priv with layoutcall := true }, true)

/-- `layout_update` from client.c: record the revision announced by a
`LayoutUpdated` signal and request a refresh when it is ahead of the local
one. -/
def layout_update (revision : Nat) (priv : ClientPriv) : ClientPriv × Bool :=
  let priv' := { priv with current_revision := revision }
  if priv'.my_revision < priv'.current_revision then update_layout priv'
  else (priv', false)

/-- The outcome of a `GetLayout` call: a transport-level failure or the
`(revision, layout)` reply. -/
inductive LayoutResult where
  | error (code : Nat)
  | ok (rev : Nat) (xml : XmlNode)

/-- `update_layout_cb` from client.c: on failure only warn and drop the
cancellable.  On success parse the layout, set `my_revision` to the reply's
revision, emit `layout-updated`, and — with `priv->layoutcall` still held —
call `update_layout` again when a newer revision arrived mid-flight; only
then (at `out:`) is `layoutcall` cleared.  Returns the new state, whether a
follow-up `GetLayout` was actually issued, and the reconciliation
effects. -/
def update_layout_cb (result : LayoutResult) (priv : ClientPriv) :
    ClientPriv × Bool × List Effect :=
  match result with
  | LayoutResult.error _ =>
    ({ priv with layoutcall := false }, false, [])
  | LayoutResult.ok rev xml =>
    let pr := parse_layout priv.root priv.fresh xml
    let priv1 := { priv with root := pr.1, fresh := pr.2.1, my_revision := rev }
    let r2 :=
      if priv1.my_revision < priv1.current_revision then update_layout priv1
      else (priv1, false)
    ({ r2.1 with layoutcall := false }, r2.2, pr.2.2.1)

/-- A client session together with the number of outstanding (issued and
not yet completed) `GetLayout` calls. -/
structure Sys where
  priv : ClientPriv
  outstanding : Nat

/-- The client state after construction once the proxy is up: no tree, both
revisions zero, no call outstanding. -/
def initPriv : ClientPriv :=
  ⟨none, 0, 0, 0, false, true, true⟩

/-- The initial session. -/
def initSys : Sys := ⟨initPriv, 0⟩

/-- Session transitions: a `LayoutUpdated` signal, any of the other
call sites of `update_layout` (proxy construction, owner change,
`AboutToShow` replies), and the completion of an outstanding `GetLayout`
call running `update_layout_cb`. -/
inductive Step : Sys → Sys → Prop where
  | signal (r : Nat) (s : Sys) :
    Step s ⟨(layout_update r s.priv).1,
            s.outstanding + (if (layout_update r s.priv).2 then 1 else 0)⟩
  | refresh (s : Sys) :
    Step s ⟨(update_layout s.priv).1,
            s.outstanding + (if (update_layout s.priv).2 then 1 else 0)⟩
  | complete (res : LayoutResult) (s : Sys) (h : s.outstanding ≠ 0) :
    Step s ⟨(update_layout_cb res s.priv).1,
            s.outstanding - 1 +
              (if (update_layout_cb res s.priv).2.1 then 1 else 0)⟩

/-- The sessions reachable from the initial one. -/
inductive Reach : Sys → Prop where
  | init : Reach initSys
  | step {s s' : Sys} : Reach s → Step s s' → Reach s'

/-- A message travelling from the server to the client, in FIFO order:
a `LayoutUpdated` signal, a `GetLayout` reply carrying the server's
revision at reply time, or a failed reply. -/
inductive Msg where
  | signal (rev : Nat)
  | reply (rev : Nat) (xml : XmlNode)
  | replyErr (code : Nat)

/-- A client/server system: the client state, the server's revision
counter, the number of `GetLayout` requests the server has not answered
yet, and the in-order message channel from server to client.  DBus delivers
signals and replies from one peer in emission order, which is what the
single FIFO models. -/
structure DSys where
  priv : ClientPriv
  serverRev : Nat
  pendingReq : Nat
  chan : List Msg

/-- The transitions of the client/server system.  The server bumps its
revision (emitting the signal), or answers an outstanding request with its
current revision; the client handles the channel head or requests a
refresh for one of `update_layout`'s other call sites. -/
inductive DStep : DSys → DSys → Prop where
  | bump (s : DSys) :
    DStep s ⟨s.priv, s.serverRev + 1, s.pendingReq,
             s.chan ++ [Msg.signal (s.serverRev + 1)]⟩
  | serve (xml : XmlNode) (s : DSys) (h : s.pendingReq ≠ 0) :
    DStep s ⟨s.priv, s.serverRev, s.pendingReq - 1,
             s.chan ++ [Msg.reply s.serverRev xml]⟩
  | serveErr (code : Nat) (s : DSys) (h : s.pendingReq ≠ 0) :
    DStep s ⟨s.priv, s.serverRev, s.pendingReq - 1,
             s.chan ++ [Msg.replyErr code]⟩
  | refresh (s : DSys) :
    DStep s ⟨(update_layout s.priv).1, s.serverRev,
             s.pendingReq + (if (update_layout s.priv).2 then 1 else 0),
             s.chan⟩
  | deliverSignal (r : Nat) (rest : List Msg) (s : DSys)
      (h : s.chan = Msg.signal r :: rest) :
    DStep s ⟨(layout_update r s.priv).1, s.serverRev,
             s.pendingReq + (if (layout_update r s.priv).2 then 1 else 0),
             rest⟩
  | deliverReply (r : Nat) (xml : XmlNode) (rest : List Msg) (s : DSys)
      (h : s.chan = Msg.reply r xml :: rest) :
    DStep s ⟨(update_layout_cb (LayoutResult.ok r xml) s.priv).1, s.serverRev,
             s.pendingReq +
               (if (update_layout_cb (LayoutResult.ok r xml) s.priv).2.1
                then 1 else 0),
             rest⟩
  | deliverReplyErr (code : Nat) (rest : List Msg) (s : DSys)
      (h : s.chan = Msg.replyErr code :: rest) :
    DStep s ⟨(update_layout_cb (LayoutResult.error code) s.priv).1,
             s.serverRev, s.pendingReq, rest⟩

/-- The initial client/server system. -/
def initDSys : DSys := ⟨initPriv, 0, 0, []⟩

/-- The systems reachable from the initial one. -/
inductive DReach : DSys → Prop where
  | init : DReach initDSys
  | step {s s' : DSys} : DReach s → DStep s s' → DReach s'

/-- Well-formedness of the channel relative to the client's current
revision: walking the channel in order, every signal announces a strictly
larger revision (bounded by the server's), and every reply carries a
revision no larger than what the signals before it have announced. -/
def chanOk (cur : Nat) (srv : Nat) : List Msg → Prop
  | [] => True
  | Msg.signal r :: rest => cur < r ∧ r ≤ srv ∧ chanOk r srv rest
  | Msg.reply r _ :: rest => r ≤ cur ∧ chanOk cur srv rest
  | Msg.replyErr _ :: rest => chanOk cur srv rest

/-- The revision the client will hold once every queued signal is
processed. -/
def lastRev (cur : Nat) : List Msg → Nat
  | [] => cur
  | Msg.signal r :: rest => lastRev r rest
  | Msg.reply _ _ :: rest => lastRev cur rest
  | Msg.replyErr _ :: rest => lastRev cur rest

/-- Specification of one pass of the child loop over the valid remote ids:
an id with a match among the remaining old children recycles that child
(first match, removed from the work list, refresh queued); any other id
builds a fresh child (initial fetch queued).  Returns the next fresh tag,
the unmatched old children, the reconciled children in remote order and the
queued effects. -/
def reconcileSpec (fresh : Nat) :
    List Int → List Menuitem → Nat × List Menuitem × List Menuitem × List Effect
  | [], old => (fresh, old, [], [])
  | id :: rest, old =>
    match old.find? (fun mi => mi.id == id) with
    | some c =>
      let r := reconcileSpec fresh rest (old.eraseP (fun mi => mi.tag == c.tag))
      (r.1, r.2.1, c :: r.2.2.1, Effect.fetchRefresh id c.tag :: r.2.2.2)
    | none =>
      let r := reconcileSpec (fresh + 1) rest old
      (r.1, r.2.1, Menuitem.mk fresh id [] :: r.2.2.1,
       Effect.fetchNew id fresh :: r.2.2.2)

/-- Run a sequence of property requests through the batcher, recording the
events of each request separately.  Every request asks for all properties
(`properties == NULL`), as every call site in client.c does. -/
def globber_trace (st : BatchState) :
    List (Int × Nat) → BatchState × List (List BatchEvent)
  | [] => (st, [])
  | (id, tok) :: rest =>
    let r := get_properties_globber st id tok none
    let r' := globber_trace r.1 rest
    (r'.1, r.2 :: r'.2)

/-- The batcher state with nothing queued. -/
def emptyBatch : BatchState := ⟨[], [], false⟩

/-- 101 property requests with distinct ids 0..100, request `i` made by
caller token `i`. -/
def c5reqs : List (Int × Nat) := (List.range 101).map (fun i => (Int.ofNat i, i))

/-- The ids of the well-typed pairs of a group reply, in order. -/
def returnIds (items : List ReturnItem) : List Int :=
  items.filterMap (fun it =>
    match it with
    | ReturnItem.malformed => none
    | ReturnItem.pair id _ => some id)

/-- Mark every listener whose id belongs to `S` as replied. -/
def mark_replied_ids (S : List Int) (L : List Listener) : List Listener :=
  L.map (fun l => if l.id ∈ S then { l with replied := true } else l)

/-- The event one reply item generates, read against the listener set the
group call was issued with. -/
def item_event (L : List Listener) : ReturnItem → List CbEvent
  | ReturnItem.malformed => []
  | ReturnItem.pair id props =>
    match L.find? (fun l => l.id == id) with
    | none => [CbEvent.unknownListener id]
    | some l => [CbEvent.deliver l.token props]

/-- The inductive invariant of the client/server system: the channel is
well-formed, processing all queued signals lands the client exactly on the
server's revision, and the locally synchronized revision never exceeds the
announced one. -/
def DInv (s : DSys) : Prop :=
  chanOk s.priv.current_revision s.serverRev s.chan ∧
  lastRev s.priv.current_revision s.chan = s.serverRev ∧
  s.priv.my_revision ≤ s.priv.current_revision

/-- The property-flush effect a reconciliation pass appends for the root
node (client.c: the `if (parent == 0)` block after the child loop of
parse_layout_xml): present exactly when the node has a parent recorded as
id 0. -/
def rootFlushEffs (parent : Option Int) : List Effect :=
  match parent with
  | some pid => if pid = 0 then [Effect.flushProps] else []
  | none => []

/-- Removing every listed key of a map in turn leaves the empty map. -/
theorem foldl_property_remove_of_subset (ks : List String) :
    ∀ m : PropMap, (∀ kv ∈ m, kv.1 ∈ ks) → ks.foldl property_remove m = [] := by
  induction ks with
  | nil =>
    intro m hm
    cases m with
    | nil => rfl
    | cons kv rest => exact absurd (hm kv (List.mem_cons_self kv rest)) (by simp)
  | cons k ks ih =>
    intro m hm
    simp only [List.foldl_cons]
    refine ih (property_remove m k) ?_
    intro kv hkv
    unfold property_remove at hkv
    have hkv' := List.mem_filter.mp hkv
    have := hm kv hkv'.1
    rcases List.mem_cons.mp this with h | h
    · exact absurd h (by simpa using hkv'.2)
    · exact h

/-- On success the replace callback clears the item and installs exactly the
fetched properties. -/
theorem replace_cb_ok (props : List (String × PropValue)) (item : PropMap) :
    menuitem_get_properties_replace_cb (Except.ok props) item =
      props.foldl (fun m kv => property_set_variant m kv.1 kv.2) [] := by
  unfold menuitem_get_properties_replace_cb
  simp only []
  have hclear : (properties_list item).foldl property_remove item = [] := by
    refine foldl_property_remove_of_subset (properties_list item) item ?_
    intro kv hkv
    exact List.mem_map.mpr ⟨kv, hkv, rfl⟩
  simp [hclear, menuitem_get_properties_cb]

/-- C10: a recycled node's property refresh leaves the property map exactly
as it was when the group fetch fails; the existing properties are removed
and replaced (by precisely the fetched set) only when the fetch succeeds. -/
theorem C10_replace_cb_error_preserves_properties :
    (∀ (e : Nat) (item : PropMap),
        menuitem_get_properties_replace_cb (Except.error e) item = item) ∧
    (∀ (props : List (String × PropValue)) (item : PropMap),
        menuitem_get_properties_replace_cb (Except.ok props) item =
          props.foldl (fun m kv => property_set_variant m kv.1 kv.2) []) := by
  constructor
  · intro e item
    unfold menuitem_get_properties_replace_cb
    simp
  · exact replace_cb_ok

/-- C2: at dispose, with one listener still awaiting a reply, the code
invokes no callback at all (the guard tests `== NULL` where its intent was
`!= NULL`), while the specified teardown hands that listener a synthetic
Shutdown error. -/
theorem C2_dispose_drops_pending_listener :
    dispose_listener_callbacks (some [⟨5, 1, false⟩]) = some [] ∧
    dispose_listener_callbacks_spec (some [⟨5, 1, false⟩]) =
      some [CbEvent.errorCb 1 CbError.shutdown] := by
  exact ⟨rfl, rfl⟩

/-- When `update_layout` issues no call it leaves the state untouched. -/
theorem update_layout_noissue {p : ClientPriv}
    (h : (update_layout p).2 = false) : (update_layout p).1 = p := by
  unfold update_layout at *
  split_ifs at h ⊢ <;> simp_all

/-- When `update_layout` issues a call, no call was outstanding and one is
afterwards. -/
theorem update_layout_issue {p : ClientPriv}
    (h : (update_layout p).2 = true) :
    p.layoutcall = false ∧ (update_layout p).1 = { p with layoutcall := true } := by
  unfold update_layout at *
  split_ifs at h ⊢ <;> simp_all

/-- With a call outstanding, `update_layout` is a complete no-op. -/
theorem update_layout_busy {p : ClientPriv} (h : p.layoutcall = true) :
    update_layout p = (p, false) := by
  unfold update_layout
  split_ifs <;> simp_all

/-- `layout_update` only rewrites `current_revision` and runs
`update_layout`; the issue flag and `layoutcall` behave as for
`update_layout`. -/
theorem layout_update_layoutcall (r : Nat) (p : ClientPriv) :
    ((layout_update r p).2 = false → (layout_update r p).1.layoutcall = p.layoutcall) ∧
    ((layout_update r p).2 = true →
      p.layoutcall = false ∧ (layout_update r p).1.layoutcall = true) := by
  simp only [layout_update]
  split_ifs with h
  · constructor
    · intro hf
      have := update_layout_noissue (p := { p with current_revision := r }) hf
      simp [this]
    · intro ht
      have := update_layout_issue (p := { p with current_revision := r }) ht
      simpa using ⟨this.1, by simp [this.2]⟩
  · simp

/-- Completion of a call with the cancellable held clears it and — because
`update_layout` is re-entered before `out:` clears `priv->layoutcall` —
never issues a follow-up call. -/
theorem update_layout_cb_busy (res : LayoutResult) (p : ClientPriv)
    (h : p.layoutcall = true) :
    (update_layout_cb res p).1.layoutcall = false ∧
      (update_layout_cb res p).2.1 = false := by
  cases res with
  | error code => exact ⟨rfl, rfl⟩
  | ok rev xml =>
    simp only [update_layout_cb]
    split_ifs with hlt
    · rw [update_layout_busy (p := { p with
          root := (parse_layout p.root p.fresh xml).1,
          fresh := (parse_layout p.root p.fresh xml).2.1,
          my_revision := rev }) (by simpa using h)]
      simp
    · simp

/-- The step relation preserves the call-accounting invariant: the count of
outstanding `GetLayout` calls is one exactly when a cancellable is held. -/
theorem step_preserves_outstanding {s s' : Sys} (hs : Step s s')
    (hinv : s.outstanding = (if s.priv.layoutcall then 1 else 0)) :
    s'.outstanding = (if s'.priv.layoutcall then 1 else 0) := by
  cases hs with
  | signal r s =>
    rcases h2 : (layout_update r s.priv).2 with _ | _
    · have := (layout_update_layoutcall r s.priv).1 h2
      simp [this, h2, hinv]
    · have := (layout_update_layoutcall r s.priv).2 h2
      simp [this.2, h2, hinv, this.1]
  | refresh s =>
    rcases h2 : (update_layout s.priv).2 with _ | _
    · have := update_layout_noissue h2
      simp [this, h2, hinv]
    · have := update_layout_issue h2
      simp [this.2, h2, hinv, this.1]
  | complete res s h =>
    have hcall : s.priv.layoutcall = true := by
      cases hc : s.priv.layoutcall
      · rw [hc] at hinv
        simp at hinv
        exact absurd hinv h
      · rfl
    have hcb := update_layout_cb_busy res s.priv hcall
    rw [hcall] at hinv
    simp only [if_true] at hinv
    simp [hcb.1, hcb.2, hinv]

/-- Every reachable session satisfies the call-accounting invariant. -/
theorem reach_outstanding {s : Sys} (hr : Reach s) :
    s.outstanding = (if s.priv.layoutcall then 1 else 0) := by
  induction hr with
  | init => rfl
  | step _ hstep ih => exact step_preserves_outstanding hstep ih

/-- C4: in every reachable session at most one `GetLayout` call is
outstanding, and a refresh requested while one is in flight is a complete
no-op issuing no second call. -/
theorem C4_at_most_one_layout_call {s : Sys} (hr : Reach s) :
    s.outstanding ≤ 1 ∧
    (s.priv.layoutcall = true → update_layout s.priv = (s.priv, false)) := by
  refine ⟨?_, fun h => update_layout_busy h⟩
  have := reach_outstanding hr
  rw [this]
  split_ifs <;> omega

/-- Witness for C4 at the initial session. -/
theorem C4_at_most_one_layout_call_witness :
    initSys.outstanding ≤ 1 ∧
    (initSys.priv.layoutcall = true →
      update_layout initSys.priv = (initSys.priv, false)) :=
  C4_at_most_one_layout_call Reach.init

/-- C3: a `LayoutUpdated` signal announcing revision 2 arrives while the
refresh issued for revision 1 is in flight; when that refresh completes
(successfully, with revision 1) the code issues no follow-up fetch at all —
`update_layout` is re-entered before `priv->layoutcall` is cleared at
`out:` and therefore returns without calling — leaving the session settled
at `my_revision = 1 < current_revision = 2` with no call outstanding. -/
theorem C3_completed_refresh_issues_no_followup :
    (layout_update 1 initPriv).2 = true ∧
    (layout_update 2 ((layout_update 1 initPriv).1)).2 = false ∧
    (update_layout_cb (LayoutResult.ok 1 (XmlNode.menu 0 []))
        ((layout_update 2 ((layout_update 1 initPriv).1)).1)).2.1 = false ∧
    (update_layout_cb (LayoutResult.ok 1 (XmlNode.menu 0 []))
        ((layout_update 2 ((layout_update 1 initPriv).1)).1)).1.my_revision = 1 ∧
    (update_layout_cb (LayoutResult.ok 1 (XmlNode.menu 0 []))
        ((layout_update 2 ((layout_update 1 initPriv).1)).1)).1.current_revision = 2 ∧
    (update_layout_cb (LayoutResult.ok 1 (XmlNode.menu 0 []))
        ((layout_update 2 ((layout_update 1 initPriv).1)).1)).1.layoutcall = false := by
  decide

/-- C8: a transport-level failure of the layout fetch leaves the whole
client state — root, nodes, revision counters — untouched except for
dropping the cancellable, and the session is again able to issue a
refresh. -/
theorem C8_layout_fetch_failure_preserves_tree (priv : ClientPriv) (e : Nat)
    (hproxy : priv.menuproxy = true) (howner : priv.name_owner = true) :
    update_layout_cb (LayoutResult.error e) priv =
      ({ priv with layoutcall := false }, false, []) ∧
    (update_layout (update_layout_cb (LayoutResult.error e) priv).1).2 = true := by
  refine ⟨rfl, ?_⟩
  simp [update_layout_cb, update_layout, hproxy, howner]

/-- Witness for C8 at a session with a tree and a call in flight. -/
theorem C8_layout_fetch_failure_preserves_tree_witness :
    (⟨some (Menuitem.mk 0 0 []), 1, 3, 3, true, true, true⟩ : ClientPriv).menuproxy
        = true ∧
    (update_layout_cb (LayoutResult.error 7)
        ⟨some (Menuitem.mk 0 0 []), 1, 3, 3, true, true, true⟩ =
      ({ (⟨some (Menuitem.mk 0 0 []), 1, 3, 3, true, true, true⟩ : ClientPriv) with
          layoutcall := false }, false, []) ∧
      (update_layout (update_layout_cb (LayoutResult.error 7)
          ⟨some (Menuitem.mk 0 0 []), 1, 3, 3, true, true, true⟩).1).2 = true) :=
  ⟨rfl, C8_layout_fetch_failure_preserves_tree _ 7 rfl rfl⟩

/-- Appending a signal for a freshly bumped revision keeps the channel
well-formed. -/
theorem chanOk_append_signal {cur srv : Nat} {ch : List Msg}
    (hok : chanOk cur srv ch) (hlast : lastRev cur ch = srv) :
    chanOk cur (srv + 1) (ch ++ [Msg.signal (srv + 1)]) := by
  induction ch generalizing cur with
  | nil =>
    simp only [lastRev] at hlast
    simp [chanOk, hlast]
  | cons m rest ih =>
    cases m with
    | signal r =>
      obtain ⟨h1, h2, h3⟩ := hok
      exact ⟨h1, by omega, ih h3 hlast⟩
    | reply r xml =>
      exact ⟨hok.1, ih hok.2 hlast⟩
    | replyErr c =>
      exact ih hok hlast

/-- Appending a reply carrying the server's current revision keeps the
channel well-formed: the signal that announced this revision precedes the
reply in the channel (or was already processed). -/
theorem chanOk_append_reply {cur srv : Nat} {ch : List Msg} (xml : XmlNode)
    (hok : chanOk cur srv ch) (hlast : lastRev cur ch = srv) :
    chanOk cur srv (ch ++ [Msg.reply srv xml]) := by
  induction ch generalizing cur with
  | nil =>
    simp only [lastRev] at hlast
    simp [chanOk, hlast]
  | cons m rest ih =>
    cases m with
    | signal r =>
      obtain ⟨h1, h2, h3⟩ := hok
      exact ⟨h1, h2, ih h3 hlast⟩
    | reply r x =>
      exact ⟨hok.1, ih hok.2 hlast⟩
    | replyErr c =>
      exact ih hok hlast

/-- Appending a failed reply keeps the channel well-formed. -/
theorem chanOk_append_replyErr {cur srv : Nat} {ch : List Msg} (c : Nat)
    (hok : chanOk cur srv ch) :
    chanOk cur srv (ch ++ [Msg.replyErr c]) := by
  induction ch generalizing cur with
  | nil => simp [chanOk]
  | cons m rest ih =>
    cases m with
    | signal r => exact ⟨hok.1, hok.2.1, ih hok.2.2⟩
    | reply r x => exact ⟨hok.1, ih hok.2⟩
    | replyErr c' => exact ih hok

/-- The final announced revision after appending a signal. -/
theorem lastRev_append_signal (cur x : Nat) (ch : List Msg) :
    lastRev cur (ch ++ [Msg.signal x]) = x := by
  induction ch generalizing cur with
  | nil => rfl
  | cons m rest ih => cases m <;> simp [lastRev, ih]

/-- Appending a reply does not change the final announced revision. -/
theorem lastRev_append_reply (cur r : Nat) (xml : XmlNode) (ch : List Msg) :
    lastRev cur (ch ++ [Msg.reply r xml]) = lastRev cur ch := by
  induction ch generalizing cur with
  | nil => rfl
  | cons m rest ih => cases m <;> simp [lastRev, ih]

/-- Appending a failed reply does not change the final announced
revision. -/
theorem lastRev_append_replyErr (cur c : Nat) (ch : List Msg) :
    lastRev cur (ch ++ [Msg.replyErr c]) = lastRev cur ch := by
  induction ch generalizing cur with
  | nil => rfl
  | cons m rest ih => cases m <;> simp [lastRev, ih]

/-- `update_layout` does not touch the revision counters. -/
theorem update_layout_revs (p : ClientPriv) :
    (update_layout p).1.current_revision = p.current_revision ∧
    (update_layout p).1.my_revision = p.my_revision := by
  simp only [update_layout]
  split_ifs <;> simp

/-- `layout_update` rewrites `current_revision` to the announced revision
and leaves `my_revision` alone. -/
theorem layout_update_revs (r : Nat) (p : ClientPriv) :
    (layout_update r p).1.current_revision = r ∧
    (layout_update r p).1.my_revision = p.my_revision := by
  simp only [layout_update]
  split_ifs with h
  · simpa using update_layout_revs { p with current_revision := r }
  · simp

/-- A successful `update_layout_cb` sets `my_revision` to the reply's
revision and leaves `current_revision` alone. -/
theorem update_layout_cb_ok_revs (r : Nat) (xml : XmlNode) (p : ClientPriv) :
    (update_layout_cb (LayoutResult.ok r xml) p).1.current_revision =
      p.current_revision ∧
    (update_layout_cb (LayoutResult.ok r xml) p).1.my_revision = r := by
  simp only [update_layout_cb]
  split_ifs with h
  · simpa using update_layout_revs { p with
      root := (parse_layout p.root p.fresh xml).1,
      fresh := (parse_layout p.root p.fresh xml).2.1, my_revision := r }
  · simp

/-- Every transition of the client/server system preserves the
invariant. -/
theorem dstep_preserves_DInv {s s' : DSys} (hs : DStep s s')
    (hinv : DInv s) : DInv s' := by
  obtain ⟨hok, hlast, hmy⟩ := hinv
  cases hs with
  | bump s =>
    exact ⟨chanOk_append_signal hok hlast,
           lastRev_append_signal _ _ _, hmy⟩
  | serve xml s h =>
    exact ⟨chanOk_append_reply xml hok hlast,
           (lastRev_append_reply _ _ _ _).trans hlast, hmy⟩
  | serveErr c s h =>
    exact ⟨chanOk_append_replyErr c hok,
           (lastRev_append_replyErr _ _ _).trans hlast, hmy⟩
  | refresh s =>
    have hr := update_layout_revs s.priv
    exact ⟨by rw [hr.1]; exact hok,
           by rw [hr.1]; exact hlast,
           by rw [hr.1, hr.2]; exact hmy⟩
  | deliverSignal r rest s h =>
    rw [h] at hok hlast
    obtain ⟨h1, h2, h3⟩ := hok
    have hr := layout_update_revs r s.priv
    exact ⟨by rw [hr.1]; exact h3,
           by rw [hr.1]; exact hlast,
           by rw [hr.1, hr.2]; omega⟩
  | deliverReply r xml rest s h =>
    rw [h] at hok hlast
    obtain ⟨h1, h2⟩ := hok
    have hr := update_layout_cb_ok_revs r xml s.priv
    exact ⟨by rw [hr.1]; exact h2,
           by rw [hr.1]; exact hlast,
           by rw [hr.1, hr.2]; omega⟩
  | deliverReplyErr c rest s h =>
    rw [h] at hok hlast
    exact ⟨hok, hlast, hmy⟩

/-- Every reachable client/server system satisfies the invariant. -/
theorem dreach_DInv {s : DSys} (hr : DReach s) : DInv s := by
  induction hr with
  | init => exact ⟨trivial, rfl, Nat.le_refl 0⟩
  | step _ hstep ih => exact dstep_preserves_DInv hstep ih

/-- C9: in every settled reachable state — all delivered notifications
processed and no refresh in flight — the revision the local tree reflects
never exceeds the last revision the remote side reported. -/
theorem C9_local_revision_le_remote {s : DSys} (hr : DReach s)
    (_hchan : s.chan = []) (_hidle : s.priv.layoutcall = false) :
    s.priv.my_revision ≤ s.priv.current_revision :=
  (dreach_DInv hr).2.2

/-- Witness for C9 at the initial (settled) system. -/
theorem C9_local_revision_le_remote_witness :
    initDSys.chan = [] ∧ initDSys.priv.layoutcall = false ∧
    initDSys.priv.my_revision ≤ initDSys.priv.current_revision :=
  ⟨rfl, rfl, C9_local_revision_le_remote DReach.init rfl rfl⟩

/-- Searching from a shifted start index shifts the reported position. -/
theorem find_listener_go_shift (L : List Listener) (id : Int) :
    ∀ i, find_listener_go L (i + 1) id =
      (find_listener_go L i id).map (fun j => j + 1) := by
  induction L with
  | nil => intro i; rfl
  | cons a rest ih =>
    intro i
    simp only [find_listener_go]
    split_ifs with h
    · rfl
    · exact ih (i + 1)

/-- Unfolding `find_listener` over the head of the array. -/
theorem find_listener_cons (a : Listener) (L : List Listener) (id : Int) :
    find_listener (a :: L) 0 id =
      if a.id = id then some 0
      else (find_listener L 0 id).map (fun j => j + 1) := by
  simp only [find_listener, List.drop_zero, find_listener_go]
  split_ifs with h
  · rfl
  · exact find_listener_go_shift L id 0

/-- `find_listener` fails exactly when no listener has the id. -/
theorem find_listener_eq_none_iff (L : List Listener) (id : Int) :
    find_listener L 0 id = none ↔ ∀ l ∈ L, l.id ≠ id := by
  induction L with
  | nil => simp [find_listener, find_listener_go]
  | cons a rest ih =>
    rw [find_listener_cons]
    split_ifs with h
    · simp [h]
    · simp [Option.map_eq_none', ih, h]

/-- `find_listener` only looks at ids, so marking replies does not change
its result. -/
theorem find_listener_mark (S : List Int) (L : List Listener) (id : Int) :
    find_listener (mark_replied_ids S L) 0 id = find_listener L 0 id := by
  induction L with
  | nil => rfl
  | cons a rest ih =>
    have hids : (if a.id ∈ S then { a with replied := true } else a).id = a.id := by
      split_ifs <;> rfl
    simp only [mark_replied_ids, List.map_cons] at *
    rw [find_listener_cons, find_listener_cons, hids, ih]

/-- Marking replies preserves the array's ids. -/
theorem mark_replied_ids_ids (S : List Int) (L : List Listener) :
    (mark_replied_ids S L).map (fun l => l.id) = L.map (fun l => l.id) := by
  unfold mark_replied_ids
  rw [List.map_map]
  refine List.map_congr_left ?_
  intro l _
  simp only [Function.comp]
  split_ifs <;> rfl

/-- On an array with distinct ids, a successful `find_listener` points at
the unique listener with that id: the element there carries the id,
marking that position replied is marking by id, and `List.find?` agrees. -/
theorem find_listener_eq_some (id : Int) :
    ∀ (L : List Listener) (i : Nat),
      (L.map (fun l => l.id)).Nodup →
      find_listener L 0 id = some i →
      i < L.length ∧
      (L.getD i ⟨0, 0, false⟩).id = id ∧
      L.getD i ⟨0, 0, false⟩ ∈ L ∧
      set_replied L i =
        L.map (fun l => if l.id = id then { l with replied := true } else l) ∧
      L.find? (fun l => l.id == id) = some (L.getD i ⟨0, 0, false⟩) := by
  intro L
  induction L with
  | nil => intro i _ h; simp [find_listener, find_listener_go] at h
  | cons a rest ih =>
    intro i hnodup hfind
    have hn : (∀ x ∈ rest, ¬ x.id = a.id) ∧
        (rest.map (fun l => l.id)).Nodup := by
      simpa using hnodup
    rw [find_listener_cons] at hfind
    split_ifs at hfind with h
    · cases hfind
      have hrest : ∀ l ∈ rest, ¬ l.id = id := by
        intro l hl hlid
        exact hn.1 l hl (hlid.trans h.symm)
      refine ⟨by simp, by simpa using h, by simp [List.getD], ?_, ?_⟩
      · simp only [set_replied, List.map_cons, if_pos h, List.getD]
        congr 1
        refine Eq.symm ?_
        refine Eq.trans (List.map_congr_left ?_) (List.map_id rest)
        intro l hl
        simp [hrest l hl]
      · simp [List.find?_cons, List.getD, h]
    · rcases Option.map_eq_some'.mp hfind with ⟨j, hj, rfl⟩
      have := ih j hn.2 hj
      refine ⟨by simpa using Nat.succ_lt_succ this.1, by simpa [List.getD] using this.2.1,
        ?_, ?_, ?_⟩
      · exact List.mem_cons_of_mem a (by simpa [List.getD] using this.2.2.1)
      · simp only [set_replied, List.map_cons, if_neg h]
        rw [(by simpa [List.getD] using this.2.2.2.1 : set_replied rest j = _)]
      · have hfa : (fun l => l.id == id) a = false := by simpa using h
        simp only [List.find?_cons, hfa, List.getD]
        simpa [List.getD] using this.2.2.2.2

/-- Marking nothing changes nothing. -/
theorem mark_replied_ids_nil (L : List Listener) :
    mark_replied_ids [] L = L := by
  unfold mark_replied_ids
  simp

/-- `getD` over a mapped listener list, within bounds. -/
theorem listener_getD_map (f : Listener → Listener) (d : Listener) :
    ∀ (L : List Listener) (i : Nat), i < L.length →
      (L.map f).getD i d = f (L.getD i d) := by
  intro L
  induction L with
  | nil =>
    intro i h
    simp at h
  | cons x xs ihx =>
    intro i h
    cases i with
    | zero => simp [List.getD]
    | succ n => simpa [List.getD] using ihx n (by simpa using h)

/-- The demultiplexing loop, characterized against the original listener
array: starting from the array with the ids in `S` already marked, it marks
the ids answered by the reply and produces each item's event in order. -/
theorem process_returns_marked (items : List ReturnItem) :
    ∀ (S : List Int) (L : List Listener),
      (L.map (fun l => l.id)).Nodup →
      (S ++ returnIds items).Nodup →
      (∀ l ∈ L, l.replied = false) →
      process_returns (mark_replied_ids S L) items =
        (mark_replied_ids (S ++ returnIds items) L,
         items.flatMap (item_event L)) := by
  induction items with
  | nil =>
    intro S L _ _ _
    simp [process_returns, returnIds]
  | cons it rest ih =>
    intro S L hL hS hunrep
    cases it with
    | malformed =>
      have : returnIds (ReturnItem.malformed :: rest) = returnIds rest := by
        simp [returnIds]
      rw [process_returns, ih S L hL (by rwa [this] at hS) hunrep, this]
      simp [item_event]
    | pair id props =>
      have hre : returnIds (ReturnItem.pair id props :: rest) =
          id :: returnIds rest := by simp [returnIds]
      rw [hre] at hS
      have hSR : (S ++ returnIds rest).Nodup :=
        List.Nodup.sublist
          (List.Sublist.append_left (List.sublist_cons_self id (returnIds rest)) S) hS
      have hidS : id ∉ S := by
        intro hid
        exact (List.disjoint_of_nodup_append hS) hid (List.mem_cons_self id _)
      have hidR : id ∉ returnIds rest := by
        have := (List.nodup_append.mp hS).2.1
        exact (List.nodup_cons.mp this).1
      rw [process_returns, find_listener_mark]
      cases hfind : find_listener L 0 id with
      | none =>
        have hnone : ∀ l ∈ L, l.id ≠ id := (find_listener_eq_none_iff L id).mp hfind
        simp only []
        rw [ih S L hL hSR hunrep]
        have hmark : mark_replied_ids (S ++ returnIds rest) L =
            mark_replied_ids (S ++ id :: returnIds rest) L := by
          unfold mark_replied_ids
          refine List.map_congr_left ?_
          intro l hl
          simp [List.mem_append, hnone l hl]
        have hfnone : L.find? (fun l => l.id == id) = none :=
          List.find?_eq_none.mpr (fun x hx => by simpa using hnone x hx)
        have hev : item_event L (ReturnItem.pair id props) =
            [CbEvent.unknownListener id] := by
          simp only [item_event, hfnone]
        rw [hmark, hre]
        simp [hev]
      | some i =>
        obtain ⟨hlen, hid0, hmem0, hset0, hfound0⟩ :=
          find_listener_eq_some id L i hL hfind
        have hXids : ((mark_replied_ids S L).map (fun l => l.id)).Nodup := by
          rw [mark_replied_ids_ids]; exact hL
        have hXfind : find_listener (mark_replied_ids S L) 0 id = some i := by
          rw [find_listener_mark]; exact hfind
        obtain ⟨hXlen, hXid, hXmem, hXset, _⟩ :=
          find_listener_eq_some id (mark_replied_ids S L) i hXids hXfind
        -- the entry at i of the marked array is the original entry, unmarked
        have hgetD : (mark_replied_ids S L).getD i ⟨0, 0, false⟩ =
            L.getD i ⟨0, 0, false⟩ := by
          unfold mark_replied_ids
          rw [listener_getD_map _ _ L i hlen]
          exact if_neg (by rw [hid0]; exact hidS)
        have hrep : ((mark_replied_ids S L).getD i ⟨0, 0, false⟩).replied = false := by
          rw [hgetD]
          exact hunrep _ hmem0
        simp only [hrep, if_pos rfl]
        -- marking position i then recursing equals recursing with id joined to S
        have hcompose : set_replied (mark_replied_ids S L) i =
            mark_replied_ids (S ++ [id]) L := by
          rw [hXset]
          unfold mark_replied_ids
          rw [List.map_map]
          refine List.map_congr_left ?_
          intro l _
          simp only [Function.comp]
          by_cases h1 : l.id = id
          · simp [h1, hidS, List.mem_append]
          · by_cases h2 : l.id ∈ S <;> simp [h1, h2, List.mem_append]
        have hSid : ((S ++ [id]) ++ returnIds rest).Nodup := by
          rw [List.append_assoc]
          exact hS
        rw [hcompose, ih (S ++ [id]) L hL hSid hunrep]
        have hev : item_event L (ReturnItem.pair id props) =
            [CbEvent.deliver ((L.getD i ⟨0, 0, false⟩)).token props] := by
          simp only [item_event, hfound0]
        rw [hre, List.append_assoc]
        simp [hev]
        simpa using congrArg Listener.token hgetD

/-- After marking the answered ids, the unreplied listeners are exactly
those whose id got no answer. -/
theorem mark_filter_unreplied (R : List Int) :
    ∀ L : List Listener, (∀ l ∈ L, l.replied = false) →
      (mark_replied_ids R L).filter (fun l => !l.replied) =
        L.filter (fun l => !(decide (l.id ∈ R))) := by
  intro L
  induction L with
  | nil => intro _; rfl
  | cons a rest ih =>
    intro h
    have ha := h a (List.mem_cons_self a rest)
    simp only [mark_replied_ids, List.map_cons, List.filter_cons]
    by_cases hmem : a.id ∈ R
    · simpa [hmem] using ih (fun l hl => h l (List.mem_cons_of_mem a hl))
    · simpa [hmem, ha] using ih (fun l hl => h l (List.mem_cons_of_mem a hl))

/-- On an array with distinct ids, `find?` returns the member with the
sought id. -/
theorem find?_eq_of_mem_nodup :
    ∀ (L : List Listener) (l : Listener) (id : Int),
      (L.map (fun x => x.id)).Nodup → l ∈ L → l.id = id →
      L.find? (fun x => x.id == id) = some l := by
  intro L
  induction L with
  | nil => intro l id _ h; simp at h
  | cons a rest ih =>
    intro l id hnodup hmem hid
    have hn : (∀ x ∈ rest, ¬ x.id = a.id) ∧
        (rest.map (fun x => x.id)).Nodup := by simpa using hnodup
    rcases List.mem_cons.mp hmem with h | h
    · subst h
      simp [List.find?_cons, hid]
    · have hne : ¬ a.id = id := by
        intro he
        exact hn.1 l h (hid.trans he.symm)
      have hfa : (fun x => x.id == id) a = false := by simpa using hne
      simp only [List.find?_cons, hfa]
      exact ih l id hn.2 h hid

/-- A well-typed pair's id is among the reply's ids. -/
theorem mem_returnIds {id : Int} {props : List (String × PropValue)}
    {items : List ReturnItem} (h : ReturnItem.pair id props ∈ items) :
    id ∈ returnIds items :=
  List.mem_filterMap.mpr ⟨ReturnItem.pair id props, h, rfl⟩

/-- C7: the flush callback (a) on a transport-level failure hands that
error to every pending listener; (b) on a successful group reply marks
exactly the answered ids replied and emits, in order, each item's event
followed by a "properties unavailable" error for every unanswered
listener; in particular (c) each returned pair is delivered to the pending
listener carrying its id and that listener ends up replied, (d) every
pending id absent from the reply receives the error callback, and (e) an
id nobody waits for is logged and skipped. -/
theorem C7_group_reply_demultiplexed (items : List ReturnItem)
    (listeners : List Listener) (e : Nat)
    (hids : (listeners.map (fun l => l.id)).Nodup)
    (hitems : (returnIds items).Nodup)
    (hunrep : ∀ l ∈ listeners, l.replied = false) :
    (get_properties_callback (Except.error e) listeners).2 =
      listeners.map (fun l => CbEvent.errorCb l.token (CbError.transport e)) ∧
    get_properties_callback (Except.ok items) listeners =
      (mark_replied_ids (returnIds items) listeners,
       items.flatMap (item_event listeners) ++
         (listeners.filter (fun l => !(decide (l.id ∈ returnIds items)))).map
           (fun l => CbEvent.errorCb l.token CbError.propsUnavailable)) ∧
    (∀ id props l, ReturnItem.pair id props ∈ items → l ∈ listeners →
       l.id = id →
       CbEvent.deliver l.token props ∈
         (get_properties_callback (Except.ok items) listeners).2 ∧
       { l with replied := true } ∈
         (get_properties_callback (Except.ok items) listeners).1) ∧
    (∀ l ∈ listeners, l.id ∉ returnIds items →
       CbEvent.errorCb l.token CbError.propsUnavailable ∈
         (get_properties_callback (Except.ok items) listeners).2) ∧
    (∀ id props, ReturnItem.pair id props ∈ items →
       (∀ l ∈ listeners, l.id ≠ id) →
       CbEvent.unknownListener id ∈
         (get_properties_callback (Except.ok items) listeners).2) := by
  have hchar : process_returns listeners items =
      (mark_replied_ids (returnIds items) listeners,
       items.flatMap (item_event listeners)) := by
    have := process_returns_marked items [] listeners hids (by simpa using hitems)
      hunrep
    rwa [mark_replied_ids_nil] at this
  have hok : get_properties_callback (Except.ok items) listeners =
      (mark_replied_ids (returnIds items) listeners,
       items.flatMap (item_event listeners) ++
         (listeners.filter (fun l => !(decide (l.id ∈ returnIds items)))).map
           (fun l => CbEvent.errorCb l.token CbError.propsUnavailable)) := by
    simp only [get_properties_callback, hchar]
    rw [mark_filter_unreplied (returnIds items) listeners hunrep]
  refine ⟨rfl, hok, ?_, ?_, ?_⟩
  · intro id props l hitem hl hid
    have hfound := find?_eq_of_mem_nodup listeners l id hids hl hid
    constructor
    · rw [hok]
      refine List.mem_append.mpr (Or.inl ?_)
      refine List.mem_flatMap.mpr ⟨ReturnItem.pair id props, hitem, ?_⟩
      simp [item_event, hfound]
    · rw [hok]
      refine List.mem_map.mpr ⟨l, hl, ?_⟩
      rw [if_pos (by rw [hid]; exact mem_returnIds hitem)]
  · intro l hl habsent
    rw [hok]
    refine List.mem_append.mpr (Or.inr ?_)
    refine List.mem_map.mpr ⟨l, ?_, rfl⟩
    refine List.mem_filter.mpr ⟨hl, by simpa using habsent⟩
  · intro id props hitem hnl
    rw [hok]
    refine List.mem_append.mpr (Or.inl ?_)
    refine List.mem_flatMap.mpr ⟨ReturnItem.pair id props, hitem, ?_⟩
    have hfnone : listeners.find? (fun l => l.id == id) = none :=
      List.find?_eq_none.mpr (fun x hx => by simpa using hnl x hx)
    simp [item_event, hfnone]

/-- Witness for C7: two pending listeners, a reply answering the first
plus an id nobody waits for; the second listener gets the error, and on a
transport failure both listeners get that error. -/
theorem C7_group_reply_demultiplexed_witness :
    (([⟨1, 10, false⟩, ⟨2, 20, false⟩] : List Listener).map
        (fun l => l.id)).Nodup ∧
    (returnIds [ReturnItem.pair 1 [], ReturnItem.pair 5 []]).Nodup ∧
    (get_properties_callback (Except.error 3)
        [⟨1, 10, false⟩, ⟨2, 20, false⟩]).2 =
      ([⟨1, 10, false⟩, ⟨2, 20, false⟩] : List Listener).map
        (fun l => CbEvent.errorCb l.token (CbError.transport 3)) ∧
    CbEvent.deliver 10 [] ∈
      (get_properties_callback
        (Except.ok [ReturnItem.pair 1 [], ReturnItem.pair 5 []])
        [⟨1, 10, false⟩, ⟨2, 20, false⟩]).2 ∧
    CbEvent.errorCb 20 CbError.propsUnavailable ∈
      (get_properties_callback
        (Except.ok [ReturnItem.pair 1 [], ReturnItem.pair 5 []])
        [⟨1, 10, false⟩, ⟨2, 20, false⟩]).2 ∧
    CbEvent.unknownListener 5 ∈
      (get_properties_callback
        (Except.ok [ReturnItem.pair 1 [], ReturnItem.pair 5 []])
        [⟨1, 10, false⟩, ⟨2, 20, false⟩]).2 := by
  have h := C7_group_reply_demultiplexed
    [ReturnItem.pair 1 [], ReturnItem.pair 5 []]
    [⟨1, 10, false⟩, ⟨2, 20, false⟩] 3
    (by decide) (by decide) (by decide)
  refine ⟨by decide, by decide, h.1, ?_, ?_, ?_⟩
  · exact (h.2.2.1 1 [] ⟨1, 10, false⟩ (by decide) (by decide) rfl).1
  · exact h.2.2.2.1 ⟨2, 20, false⟩ (by decide) (by decide)
  · exact h.2.2.2.2 5 [] (by decide) (by decide)

/-- C6: a request for an id already pending leaves the batcher state
completely untouched and answers the duplicate's callback with the
"ID already queued" error; the scheduled flush then answers the first
request as if the duplicate had never arrived — one group call carrying
the pending ids, the duplicated id among them. -/
theorem C6_duplicate_request_error (st : BatchState) (id : Int) (tok : Nat)
    (props : Option (List String))
    (hpend : ∃ x ∈ st.delayed_property_listeners, x.id = id) :
    get_properties_globber st id tok props = (st, [BatchEvent.dupError tok]) ∧
    (st.delayed_idle = true →
      get_properties_flush st =
        (⟨[], [], false⟩,
         [BatchEvent.groupCall
            (st.delayed_property_listeners.map (fun l => l.id))]) ∧
      id ∈ st.delayed_property_listeners.map (fun l => l.id)) := by
  obtain ⟨x, hx, hxid⟩ := hpend
  have hne : find_listener st.delayed_property_listeners 0 id ≠ none := by
    rw [Ne, find_listener_eq_none_iff]
    push_neg
    exact ⟨x, hx, hxid⟩
  have hs : (find_listener st.delayed_property_listeners 0 id).isSome = true :=
    Option.ne_none_iff_isSome.mp hne
  constructor
  · simp [get_properties_globber, hs]
  · intro hidle
    have hlen : st.delayed_property_listeners.length ≠ 0 := by
      intro h0
      rw [List.length_eq_zero] at h0
      simp [h0] at hx
    refine ⟨?_, List.mem_map.mpr ⟨x, hx, hxid⟩⟩
    simp [get_properties_flush, get_properties_idle, hidle, hlen]

/-- Witness for C6: id 7 is already pending with an idle flush scheduled;
the duplicate request (token 2) errors out and the flush still answers the
original. -/
theorem C6_duplicate_request_error_witness :
    (∃ x ∈ (⟨[], [⟨7, 1, false⟩], true⟩ : BatchState).delayed_property_listeners,
        x.id = 7) ∧
    get_properties_globber ⟨[], [⟨7, 1, false⟩], true⟩ 7 2 none =
      (⟨[], [⟨7, 1, false⟩], true⟩, [BatchEvent.dupError 2]) ∧
    get_properties_flush (⟨[], [⟨7, 1, false⟩], true⟩ : BatchState) =
      (⟨[], [], false⟩, [BatchEvent.groupCall [7]]) := by
  have h := C6_duplicate_request_error ⟨[], [⟨7, 1, false⟩], true⟩ 7 2 none
    (by decide)
  exact ⟨by decide, h.1, (h.2 rfl).1⟩

/-- C5 counterexample: the immediate flush of a full batch is triggered by
the 100th request itself (trace position 99), which sends all 100 pending
ids; the 101st request (trace position 100) arrives to an already empty
batch, triggers nothing, and just queues itself in a fresh batch. -/
theorem C5_counterexample_flush_at_100th_request :
    (globber_trace emptyBatch c5reqs).2.getD 99 [] =
      [BatchEvent.groupCall ((List.range 100).map (fun i => (i : Int)))] ∧
    (globber_trace emptyBatch c5reqs).2.getD 100 [] = [] ∧
    (globber_trace emptyBatch c5reqs).1.delayed_property_listeners.map
        (fun l => l.id) = [(100 : Int)] := by
  set_option maxRecDepth 40000 in decide

/-- Requests with fresh distinct ids that do not fill the batch queue up
without triggering any flush. -/
theorem globber_trace_no_flush :
    ∀ (reqs : List (Int × Nat)) (st : BatchState),
      ((st.delayed_property_listeners.map (fun l => l.id)) ++
          reqs.map Prod.fst).Nodup →
      st.delayed_property_listeners.length + reqs.length <
          MAX_PROPERTIES_TO_QUEUE →
      globber_trace st reqs =
        (⟨if reqs.isEmpty then st.delayed_property_list else [],
          st.delayed_property_listeners ++
            reqs.map (fun r => (⟨r.1, r.2, false⟩ : Listener)),
          st.delayed_idle || !reqs.isEmpty⟩,
         reqs.map (fun _ => [])) := by
  intro reqs
  induction reqs with
  | nil =>
    intro st _ _
    simp [globber_trace]
  | cons r rest ih =>
    intro st hnodup hlen
    obtain ⟨id, tok⟩ := r
    have hdisj : ∀ l ∈ st.delayed_property_listeners, l.id ≠ id := by
      intro l hl hlid
      refine List.disjoint_of_nodup_append hnodup
        (List.mem_map.mpr ⟨l, hl, rfl⟩) ?_
      rw [hlid]
      exact List.mem_cons_self id _
    have hfind : find_listener st.delayed_property_listeners 0 id = none :=
      (find_listener_eq_none_iff _ _).mpr hdisj
    have hlen1 : st.delayed_property_listeners.length + 1 ≠
        MAX_PROPERTIES_TO_QUEUE := by
      simp only [MAX_PROPERTIES_TO_QUEUE, List.length_cons] at hlen ⊢
      omega
    have hstep : get_properties_globber st id tok none =
        (⟨[], st.delayed_property_listeners ++ [⟨id, tok, false⟩], true⟩,
         []) := by
      simp only [get_properties_globber, hfind, Option.isSome_none,
        Bool.false_eq_true, if_false]
      rw [if_neg (by simpa using hlen1)]
    have hih := ih ⟨[], st.delayed_property_listeners ++ [⟨id, tok, false⟩], true⟩
      (by simpa using hnodup)
      (by simp only [MAX_PROPERTIES_TO_QUEUE, List.length_cons] at hlen ⊢
          simp only [List.length_append, List.length_cons, List.length_nil]
          omega)
    simp only [globber_trace, hstep, hih]
    simp

/-- The request that fills the batch to `MAX_PROPERTIES_TO_QUEUE` entries
triggers the immediate flush itself: one group call carrying every pending
id, the filling request's included, leaving the batcher empty. -/
theorem globber_trace_flush_at_cap :
    ∀ (reqs : List (Int × Nat)) (st : BatchState),
      reqs ≠ [] →
      ((st.delayed_property_listeners.map (fun l => l.id)) ++
          reqs.map Prod.fst).Nodup →
      st.delayed_property_listeners.length + reqs.length =
          MAX_PROPERTIES_TO_QUEUE →
      globber_trace st reqs =
        (⟨[], [], false⟩,
         (reqs.dropLast.map (fun _ => [])) ++
           [[BatchEvent.groupCall
              ((st.delayed_property_listeners ++
                  reqs.map (fun r => (⟨r.1, r.2, false⟩ : Listener))).map
                 (fun l => l.id))]]) := by
  intro reqs
  induction reqs with
  | nil => intro st hne _ _; exact absurd rfl hne
  | cons r rest ih =>
    intro st _ hnodup hlen
    obtain ⟨id, tok⟩ := r
    have hdisj : ∀ l ∈ st.delayed_property_listeners, l.id ≠ id := by
      intro l hl hlid
      refine List.disjoint_of_nodup_append hnodup
        (List.mem_map.mpr ⟨l, hl, rfl⟩) ?_
      rw [hlid]
      exact List.mem_cons_self id _
    have hfind : find_listener st.delayed_property_listeners 0 id = none :=
      (find_listener_eq_none_iff _ _).mpr hdisj
    cases hrest : rest with
    | nil =>
      -- this request is the one that reaches the cap
      subst hrest
      have hcap : st.delayed_property_listeners.length + 1 =
          MAX_PROPERTIES_TO_QUEUE := by simpa using hlen
      have hstep : get_properties_globber st id tok none =
          (⟨[], [], false⟩,
           [BatchEvent.groupCall
              ((st.delayed_property_listeners ++
                  ([⟨id, tok, false⟩] : List Listener)).map
                 (fun l => l.id))]) := by
        simp only [get_properties_globber, hfind, Option.isSome_none,
          Bool.false_eq_true, if_false]
        rw [if_pos (by simpa using hcap)]
        simp [get_properties_flush, get_properties_idle,
          MAX_PROPERTIES_TO_QUEUE]
      simp [globber_trace, hstep]
    | cons r2 rest2 =>
      rw [← hrest]
      have hrne : rest ≠ [] := by rw [hrest]; exact List.cons_ne_nil r2 rest2
      have hlen1 : st.delayed_property_listeners.length + 1 ≠
          MAX_PROPERTIES_TO_QUEUE := by
        have hr0 : rest.length ≠ 0 := by
          intro h0
          exact hrne (List.length_eq_zero.mp h0)
        simp only [MAX_PROPERTIES_TO_QUEUE, List.length_cons] at hlen ⊢
        omega
      have hstep : get_properties_globber st id tok none =
          (⟨[], st.delayed_property_listeners ++ [⟨id, tok, false⟩], true⟩,
           []) := by
        simp only [get_properties_globber, hfind, Option.isSome_none,
          Bool.false_eq_true, if_false]
        rw [if_neg (by simpa using hlen1)]
      have hih := ih ⟨[], st.delayed_property_listeners ++ [⟨id, tok, false⟩], true⟩
        hrne (by simpa using hnodup)
        (by simp only [MAX_PROPERTIES_TO_QUEUE, List.length_cons] at hlen ⊢
            simp only [List.length_append, List.length_cons, List.length_nil]
            omega)
      simp only [globber_trace, hstep, hih]
      rw [List.dropLast_cons_of_ne_nil hrne]
      simp

/-- The batcher trace splits over concatenated request sequences. -/
theorem globber_trace_append (a b : List (Int × Nat)) :
    ∀ st : BatchState,
      globber_trace st (a ++ b) =
        ((globber_trace (globber_trace st a).1 b).1,
         (globber_trace st a).2 ++ (globber_trace (globber_trace st a).1 b).2) := by
  induction a with
  | nil => intro st; simp [globber_trace]
  | cons r rest ih =>
    intro st
    obtain ⟨id, tok⟩ := r
    simp only [List.cons_append, globber_trace]
    simp only [List.append_eq]
    rw [ih ((get_properties_globber st id tok none).1)]

/-- C5 (amended): a batch of fewer than 100 distinct requests issues no
group call until the scheduler tick, whose flush sends all of them as one
group call; the 100th request fills the queue and triggers the immediate
flush itself, one group call carrying all 100 ids including its own; a
101st request therefore arrives at an already flushed batcher, triggers
nothing, and starts the next batch. -/
theorem C5_amended_century_flush (reqs : List (Int × Nat))
    (hnodup : (reqs.map Prod.fst).Nodup) :
    (reqs ≠ [] → reqs.length < MAX_PROPERTIES_TO_QUEUE →
       (globber_trace emptyBatch reqs).2 = reqs.map (fun _ => []) ∧
       get_properties_flush (globber_trace emptyBatch reqs).1 =
         (⟨[], [], false⟩, [BatchEvent.groupCall (reqs.map Prod.fst)])) ∧
    (reqs.length = MAX_PROPERTIES_TO_QUEUE →
       (globber_trace emptyBatch reqs).2 =
         reqs.dropLast.map (fun _ => []) ++
           [[BatchEvent.groupCall (reqs.map Prod.fst)]] ∧
       (globber_trace emptyBatch reqs).1 = ⟨[], [], false⟩) ∧
    (reqs.length = MAX_PROPERTIES_TO_QUEUE + 1 →
       (globber_trace emptyBatch reqs).2 =
         (reqs.take MAX_PROPERTIES_TO_QUEUE).dropLast.map (fun _ => []) ++
           [[BatchEvent.groupCall
              ((reqs.take MAX_PROPERTIES_TO_QUEUE).map Prod.fst)]] ++
           [[]] ∧
       (globber_trace emptyBatch reqs).1.delayed_property_listeners.map
           (fun l => l.id) =
         (reqs.drop MAX_PROPERTIES_TO_QUEUE).map Prod.fst) := by
  refine ⟨?_, ?_, ?_⟩
  · intro hne hlt
    have h := globber_trace_no_flush reqs emptyBatch
      (by simpa [emptyBatch] using hnodup) (by simpa [emptyBatch] using hlt)
    have hne' : reqs.isEmpty = false := by
      cases reqs with
      | nil => exact absurd rfl hne
      | cons a l => rfl
    rw [h]
    refine ⟨rfl, ?_⟩
    simp only [hne', Bool.not_false, Bool.or_true]
    simp [get_properties_flush, get_properties_idle, emptyBatch, hne,
      List.map_map, Function.comp]
  · intro hcap
    have hne : reqs ≠ [] := by
      intro h0
      rw [h0] at hcap
      simp [MAX_PROPERTIES_TO_QUEUE] at hcap
    have h := globber_trace_flush_at_cap reqs emptyBatch hne
      (by simpa [emptyBatch] using hnodup) (by simpa [emptyBatch] using hcap)
    rw [h]
    have hmapids : List.map (fun l => l.id)
        (emptyBatch.delayed_property_listeners ++
          List.map (fun r => (⟨r.1, r.2, false⟩ : Listener)) reqs) =
        List.map Prod.fst reqs := by
      rw [show emptyBatch.delayed_property_listeners = ([] : List Listener)
        from rfl]
      rw [List.nil_append, List.map_map]
      exact List.map_congr_left (fun r _ => rfl)
    rw [hmapids]
    exact ⟨rfl, rfl⟩
  · intro hlen
    have hsplit : reqs = reqs.take MAX_PROPERTIES_TO_QUEUE ++
        reqs.drop MAX_PROPERTIES_TO_QUEUE := (List.take_append_drop _ reqs).symm
    have htlen : (reqs.take MAX_PROPERTIES_TO_QUEUE).length =
        MAX_PROPERTIES_TO_QUEUE := by
      rw [List.length_take]
      omega
    have hdlen : (reqs.drop MAX_PROPERTIES_TO_QUEUE).length = 1 := by
      rw [List.length_drop, hlen]
      simp [MAX_PROPERTIES_TO_QUEUE]
    have htne : reqs.take MAX_PROPERTIES_TO_QUEUE ≠ [] := by
      intro h0
      rw [h0] at htlen
      simp [MAX_PROPERTIES_TO_QUEUE] at htlen
    have htnodup : ((reqs.take MAX_PROPERTIES_TO_QUEUE).map Prod.fst).Nodup :=
      List.Nodup.sublist (List.Sublist.map Prod.fst (List.take_sublist _ reqs))
        hnodup
    have hdnodup : ((reqs.drop MAX_PROPERTIES_TO_QUEUE).map Prod.fst).Nodup :=
      List.Nodup.sublist (List.Sublist.map Prod.fst (List.drop_sublist _ reqs))
        hnodup
    have hfirst := globber_trace_flush_at_cap (reqs.take MAX_PROPERTIES_TO_QUEUE)
      emptyBatch htne (by simpa [emptyBatch] using htnodup)
      (by simpa [emptyBatch] using htlen)
    have hsecond := globber_trace_no_flush (reqs.drop MAX_PROPERTIES_TO_QUEUE)
      ⟨[], [], false⟩ (by simpa using hdnodup)
      (by simp only [hdlen, List.length_nil]
          simp [MAX_PROPERTIES_TO_QUEUE])
    have happ := globber_trace_append (reqs.take MAX_PROPERTIES_TO_QUEUE)
      (reqs.drop MAX_PROPERTIES_TO_QUEUE) emptyBatch
    rw [List.take_append_drop] at happ
    have hdne : (reqs.drop MAX_PROPERTIES_TO_QUEUE).isEmpty = false := by
      cases hd : reqs.drop MAX_PROPERTIES_TO_QUEUE with
      | nil => rw [hd] at hdlen; simp at hdlen
      | cons a l => rfl
    have htids : List.map (fun l => l.id)
        (emptyBatch.delayed_property_listeners ++
          List.map (fun r => (⟨r.1, r.2, false⟩ : Listener))
            (reqs.take MAX_PROPERTIES_TO_QUEUE)) =
        List.map Prod.fst (reqs.take MAX_PROPERTIES_TO_QUEUE) := by
      rw [show emptyBatch.delayed_property_listeners = ([] : List Listener)
        from rfl]
      rw [List.nil_append, List.map_map]
      exact List.map_congr_left (fun r _ => rfl)
    constructor
    · rw [happ, hfirst, hsecond]
      rw [htids]
      simp only [hdne, Bool.not_false, Bool.or_true]
      obtain ⟨x, hx⟩ := List.length_eq_one.mp hdlen
      rw [hx]
      simp [List.append_assoc]
    · rw [happ, hfirst, hsecond]
      simp only [hdne, Bool.not_false, Bool.or_true, List.nil_append]
      rw [List.map_map]
      exact List.map_congr_left (fun r _ => rfl)

/-- Witness for C5 (amended) at the concrete 101-request sequence
`c5reqs`. -/
theorem C5_amended_century_flush_witness :
    (c5reqs.map Prod.fst).Nodup ∧
    (c5reqs.length = MAX_PROPERTIES_TO_QUEUE + 1 →
       (globber_trace emptyBatch c5reqs).2 =
         (c5reqs.take MAX_PROPERTIES_TO_QUEUE).dropLast.map (fun _ => []) ++
           [[BatchEvent.groupCall
              ((c5reqs.take MAX_PROPERTIES_TO_QUEUE).map Prod.fst)]] ++
           [[]] ∧
       (globber_trace emptyBatch c5reqs).1.delayed_property_listeners.map
           (fun l => l.id) =
         (c5reqs.drop MAX_PROPERTIES_TO_QUEUE).map Prod.fst) := by
  have hnodup : (c5reqs.map Prod.fst).Nodup := by
    unfold c5reqs
    rw [List.map_map]
    refine List.Nodup.map ?_ (List.nodup_range 101)
    intro a b hab
    simpa using hab
  exact ⟨hnodup, (C5_amended_century_flush c5reqs hnodup).2.2⟩

/-- Projection of a built menu item: the tag. -/
@[simp]
theorem Menuitem.tag_mk (t : Nat) (i : Int) (c : List Menuitem) :
    (Menuitem.mk t i c).tag = t := rfl

/-- Projection of a built menu item: the id. -/
@[simp]
theorem Menuitem.id_mk (t : Nat) (i : Int) (c : List Menuitem) :
    (Menuitem.mk t i c).id = i := rfl

/-- Projection of a built menu item: the children. -/
@[simp]
theorem Menuitem.children_mk (t : Nat) (i : Int) (c : List Menuitem) :
    (Menuitem.mk t i c).children = c := rfl

/-- Erasure skips a prefix with no match. -/
theorem eraseP_append_of_not {α : Type} (p : α → Bool) :
    ∀ (l1 l2 : List α), (∀ x ∈ l1, ¬ p x) →
      (l1 ++ l2).eraseP p = l1 ++ l2.eraseP p := by
  intro l1 l2 h
  induction l1 with
  | nil => simp
  | cons a rest ih =>
    have ha : p a = false := by simpa using h a (List.mem_cons_self a rest)
    simp only [List.cons_append, List.eraseP_cons, ha]
    simpa using ih (fun x hx => h x (List.mem_cons_of_mem a hx))

/-- Search skips a prefix with no match. -/
theorem find?_append_of_not {α : Type} (p : α → Bool) :
    ∀ (l1 l2 : List α), (∀ x ∈ l1, ¬ p x) →
      (l1 ++ l2).find? p = l2.find? p := by
  intro l1 l2 h
  induction l1 with
  | nil => simp
  | cons a rest ih =>
    have ha : p a = false := by simpa using h a (List.mem_cons_self a rest)
    simp only [List.cons_append, List.find?_cons, ha]
    exact ih (fun x hx => h x (List.mem_cons_of_mem a hx))

/-- Inserting at the length of a prefix puts the element right after it. -/
theorem insertIdx_append_self {α : Type} (x : α) :
    ∀ (done X : List α), (done ++ X).insertIdx done.length x = done ++ x :: X := by
  intro done
  induction done with
  | nil => intro X; rfl
  | cons a rest ih => intro X; simp [List.insertIdx_succ_cons, ih]

/-- An element not matching the predicate survives erasure. -/
theorem mem_eraseP_of_not {α : Type} (p : α → Bool) :
    ∀ (l : List α) (c : α), c ∈ l → p c = false → c ∈ l.eraseP p := by
  intro l
  induction l with
  | nil => intro c h _; simp at h
  | cons a rest ih =>
    intro c hc hpc
    rcases List.mem_cons.mp hc with h | h
    · subst h
      simp [List.eraseP_cons, hpc]
    · by_cases hpa : p a
      · simp [List.eraseP_cons, hpa, h]
      · simp only [List.eraseP_cons, Bool.not_eq_true] at hpa ⊢
        rw [hpa]
        exact List.mem_cons_of_mem a (ih c h hpc)

/-- On a list whose keys are distinct, searching for a member's key finds
that member. -/
theorem find?_key_eq_of_mem_nodup {α β : Type} [BEq β] [LawfulBEq β]
    (key : α → β) :
    ∀ (L : List α) (a : α), ((L.map key).Nodup) → a ∈ L →
      L.find? (fun x => key x == key a) = some a := by
  intro L
  induction L with
  | nil => intro a _ h; simp at h
  | cons x rest ih =>
    intro a hnodup hmem
    have hn : (∀ y ∈ rest, ¬ key y = key x) ∧
        (rest.map key).Nodup := by simpa using hnodup
    rcases List.mem_cons.mp hmem with h | h
    · subst h
      simp [List.find?_cons]
    · have hne : ¬ (key x == key a) = true := by
        intro he
        exact hn.1 a h (beq_iff_eq.mp he).symm
      simp only [List.find?_cons, Bool.not_eq_true] at hne ⊢
      rw [hne]
      exact ih a hn.2 h

/-- On a list whose keys are distinct, erasing by a member's key removes
that member for good. -/
theorem not_mem_eraseP_key_self {α β : Type} [BEq β] [LawfulBEq β]
    (key : α → β) :
    ∀ (L : List α) (c : α), ((L.map key).Nodup) → c ∈ L →
      c ∉ L.eraseP (fun x => key x == key c) := by
  intro L
  induction L with
  | nil => intro c _ h; simp at h
  | cons x rest ih =>
    intro c hnodup hmem
    have hn : (∀ y ∈ rest, ¬ key y = key x) ∧
        (rest.map key).Nodup := by simpa using hnodup
    by_cases hpx : (key x == key c) = true
    · have herase : List.eraseP (fun y => key y == key c) (x :: rest) = rest := by
        simp [List.eraseP_cons, hpx]
      rw [herase]
      intro hc
      exact hn.1 c hc (beq_iff_eq.mp hpx).symm
    · have herase : List.eraseP (fun y => key y == key c) (x :: rest) =
          x :: List.eraseP (fun y => key y == key c) rest := by
        simp [List.eraseP_cons, hpx]
      rw [herase]
      have hcx : c ≠ x := by
        intro he
        exact hpx (by rw [he]; exact beq_self_eq_true _)
      have hcr : c ∈ rest := by
        rcases List.mem_cons.mp hmem with h | h
        · exact absurd h hcx
        · exact h
      intro hc
      rcases List.mem_cons.mp hc with h | h
      · exact hcx h
      · exact ih c hn.2 hcr h

/-- A node's own tag is among its subtree's tags. -/
theorem Menuitem.tag_mem_tags (mi : Menuitem) :
    mi.tag ∈ Menuitem.tags mi := by
  cases mi with
  | mk t i c => simp [Menuitem.tags]

/-- A member's subtree tags are among the forest's tags. -/
theorem mem_tagsList_of_mem :
    ∀ {L : List Menuitem} {mi : Menuitem}, mi ∈ L →
      ∀ {x : Nat}, x ∈ Menuitem.tags mi → x ∈ Menuitem.tagsList L := by
  intro L
  induction L with
  | nil => intro mi h; simp at h
  | cons a rest ih =>
    intro mi hmi x hx
    rcases List.mem_cons.mp hmi with h | h
    · subst h
      simp [Menuitem.tagsList, List.mem_append, hx]
    · simp [Menuitem.tagsList, List.mem_append]
      exact Or.inr (ih h hx)

/-- A tag occurring below a node occurs in the node's subtree. -/
theorem tags_children_subset {mi : Menuitem} {x : Nat}
    (h : x ∈ Menuitem.tagsList mi.children) : x ∈ Menuitem.tags mi := by
  cases mi with
  | mk t i c =>
    simp only [Menuitem.children] at h
    simp [Menuitem.tags, h]

/-- The top-level tags form a sublist of the forest's tags. -/
theorem map_tag_sublist_tagsList :
    ∀ L : List Menuitem, List.Sublist (L.map Menuitem.tag) (Menuitem.tagsList L) := by
  intro L
  induction L with
  | nil => simp [Menuitem.tagsList]
  | cons a rest ih =>
    cases a with
    | mk t i c =>
      simp only [List.map_cons, Menuitem.tagsList, Menuitem.tags]
      refine List.Sublist.cons₂ t ?_
      exact List.Sublist.trans ih (List.sublist_append_right _ _)

/-- With all tags in a forest distinct, no member's tag occurs below
another member. -/
theorem tagsList_nodup_no_cross :
    ∀ {L : List Menuitem}, (Menuitem.tagsList L).Nodup →
      ∀ {c mi : Menuitem}, c ∈ L → mi ∈ L →
      c.tag ∈ Menuitem.tagsList mi.children → False := by
  intro L
  induction L with
  | nil => intro _ c mi h; simp at h
  | cons a rest ih =>
    intro hnodup c mi hc hmi hcross
    have hsplit : (Menuitem.tags a).Nodup ∧ (Menuitem.tagsList rest).Nodup ∧
        List.Disjoint (Menuitem.tags a) (Menuitem.tagsList rest) := by
      have : Menuitem.tagsList (a :: rest) =
          Menuitem.tags a ++ Menuitem.tagsList rest := by
        simp [Menuitem.tagsList]
      rw [this] at hnodup
      exact List.nodup_append.mp hnodup
    rcases List.mem_cons.mp hc with h1 | h1 <;>
      rcases List.mem_cons.mp hmi with h2 | h2
    · rw [h1] at hcross
      rw [h2] at hcross
      cases a with
      | mk t i cc =>
        have hna := hsplit.1
        simp only [Menuitem.tags, List.nodup_cons] at hna
        simp only [Menuitem.tag, Menuitem.children] at hcross
        exact hna.1 (by simpa using hcross)
    · refine hsplit.2.2 ?_
        (mem_tagsList_of_mem h2 (tags_children_subset hcross))
      rw [h1]
      exact Menuitem.tag_mem_tags a
    · rw [h2] at hcross
      exact hsplit.2.2 (tags_children_subset hcross)
        (mem_tagsList_of_mem h1 (Menuitem.tag_mem_tags c))
    · exact ih hsplit.2.1 h1 h2 hcross

/-- The reconciled children carry exactly the remote ids, in remote
order. -/
theorem spec_mids_ids :
    ∀ (ids : List Int) (old : List Menuitem) (fresh : Nat),
      (reconcileSpec fresh ids old).2.2.1.map Menuitem.id = ids := by
  intro ids
  induction ids with
  | nil => intro old fresh; rfl
  | cons id rest ih =>
    intro old fresh
    simp only [reconcileSpec]
    cases hfind : old.find? (fun mi => mi.id == id) with
    | some c =>
      have hcid : c.id = id := by simpa using List.find?_some hfind
      simp only [List.map_cons, ih]
      rw [hcid]
    | none =>
      simp only [List.map_cons, ih, Menuitem.id_mk]

/-- A remote id matching an existing child recycles that very child as the
reconciled child at that position, with a property refresh queued. -/
theorem spec_recycled :
    ∀ (ids : List Int) (old : List Menuitem) (fresh : Nat),
      (old.map Menuitem.id).Nodup → (old.map Menuitem.tag).Nodup →
      ids.Nodup →
      ∀ (j : Nat) (h : j < ids.length) (c : Menuitem),
        c ∈ old → c.id = ids.get ⟨j, h⟩ →
        (reconcileSpec fresh ids old).2.2.1.getD j (Menuitem.mk 0 0 []) = c ∧
        Effect.fetchRefresh c.id c.tag ∈ (reconcileSpec fresh ids old).2.2.2 := by
  intro ids
  induction ids with
  | nil =>
    intro old fresh _ _ _ j h
    simp at h
  | cons id rest ih =>
    intro old fresh hid htag hids j h c hc hcid
    have hnr : id ∉ rest ∧ rest.Nodup := by simpa using hids
    cases j with
    | zero =>
      have hcid0 : c.id = id := by simpa using hcid
      have hfind : old.find? (fun mi => mi.id == id) = some c := by
        have := find?_key_eq_of_mem_nodup Menuitem.id old c hid hc
        rwa [hcid0] at this
      simp only [reconcileSpec, hfind]
      simp [hcid0]
    | succ j =>
      have hcidr : c.id = rest.get ⟨j, by simpa using h⟩ := by simpa using hcid
      simp only [reconcileSpec]
      cases hfind : old.find? (fun mi => mi.id == id) with
      | some c0 =>
        have hc0 : c0 ∈ old := List.mem_of_find?_eq_some hfind
        have hc0id : c0.id = id := by simpa using List.find?_some hfind
        have hne : c ≠ c0 := by
          intro he
          rw [he, hc0id] at hcidr
          exact hnr.1 (by rw [hcidr]; exact List.get_mem rest _ _)
        have hnetag : (c.tag == c0.tag) = false := by
          simp only [beq_eq_false_iff_ne, Ne]
          intro he
          exact hne (List.inj_on_of_nodup_map htag hc hc0 he)
        have hmem' : c ∈ old.eraseP (fun mi => mi.tag == c0.tag) :=
          mem_eraseP_of_not _ old c hc hnetag
        have hsub : List.Sublist (old.eraseP (fun mi => mi.tag == c0.tag)) old :=
          List.eraseP_sublist old
        have hih := ih (old.eraseP (fun mi => mi.tag == c0.tag)) fresh
          (List.Nodup.sublist (List.Sublist.map _ hsub) hid)
          (List.Nodup.sublist (List.Sublist.map _ hsub) htag)
          hnr.2 j (by simpa using h) c hmem' hcidr
        simp only [List.getD]
        refine ⟨by simpa [List.getD] using hih.1, ?_⟩
        exact List.mem_cons_of_mem _ hih.2
      | none =>
        have hih := ih old (fresh + 1) hid htag hnr.2 j (by simpa using h) c hc
          hcidr
        refine ⟨by simpa [List.getD] using hih.1, ?_⟩
        exact List.mem_cons_of_mem _ hih.2

/-- A remote id with no match among the existing children yields a fresh
node (tag at least `fresh`, no children yet) at that position with its
initial fetch queued. -/
theorem spec_new :
    ∀ (ids : List Int) (old : List Menuitem) (fresh : Nat)
      (j : Nat) (h : j < ids.length),
      ids.get ⟨j, h⟩ ∉ old.map Menuitem.id →
      fresh ≤ ((reconcileSpec fresh ids old).2.2.1.getD j (Menuitem.mk 0 0 [])).tag ∧
      ((reconcileSpec fresh ids old).2.2.1.getD j (Menuitem.mk 0 0 [])).children
        = [] ∧
      Effect.fetchNew (ids.get ⟨j, h⟩)
          (((reconcileSpec fresh ids old).2.2.1.getD j (Menuitem.mk 0 0 [])).tag) ∈
        (reconcileSpec fresh ids old).2.2.2 := by
  intro ids
  induction ids with
  | nil =>
    intro old fresh j h
    simp at h
  | cons id rest ih =>
    intro old fresh j h habsent
    cases j with
    | zero =>
      have hfind : old.find? (fun mi => mi.id == id) = none := by
        refine List.find?_eq_none.mpr ?_
        intro mi hmi
        simp only [beq_iff_eq]
        intro he
        exact habsent (by
          simp only [List.get] at *
          exact List.mem_map.mpr ⟨mi, hmi, he⟩)
      simp only [reconcileSpec, hfind]
      simp
    | succ j =>
      have habsentr : rest.get ⟨j, by simpa using h⟩ ∉ old.map Menuitem.id := by
        simpa using habsent
      simp only [reconcileSpec]
      cases hfind : old.find? (fun mi => mi.id == id) with
      | some c0 =>
        have hsub : List.Sublist (old.eraseP (fun mi => mi.tag == c0.tag)) old :=
          List.eraseP_sublist old
        have habsent' : rest.get ⟨j, by simpa using h⟩ ∉
            (old.eraseP (fun mi => mi.tag == c0.tag)).map Menuitem.id := by
          intro hmem
          exact habsentr (List.Sublist.mem hmem (List.Sublist.map _ hsub))
        have hih := ih (old.eraseP (fun mi => mi.tag == c0.tag)) fresh j
          (by simpa using h) habsent'
        refine ⟨by simpa [List.getD] using hih.1,
          by simpa [List.getD] using hih.2.1, ?_⟩
        refine List.mem_cons_of_mem _ ?_
        simpa [List.getD] using hih.2.2
      | none =>
        have hih := ih old (fresh + 1) j (by simpa using h) habsentr
        refine ⟨by simpa [List.getD] using Nat.le_of_succ_le hih.1,
          by simpa [List.getD] using hih.2.1, ?_⟩
        refine List.mem_cons_of_mem _ ?_
        simpa [List.getD] using hih.2.2

/-- The unmatched work list is a sublist of the existing children. -/
theorem spec_oldLeft_sublist :
    ∀ (ids : List Int) (old : List Menuitem) (fresh : Nat),
      List.Sublist (reconcileSpec fresh ids old).2.1 old := by
  intro ids
  induction ids with
  | nil => intro old fresh; exact List.Sublist.refl old
  | cons id rest ih =>
    intro old fresh
    simp only [reconcileSpec]
    cases hfind : old.find? (fun mi => mi.id == id) with
    | some c0 =>
      exact List.Sublist.trans (ih _ fresh) (List.eraseP_sublist old)
    | none => exact ih old (fresh + 1)

/-- An existing child whose id no remote id mentions stays on the
unmatched work list. -/
theorem spec_unmatched_in_oldLeft :
    ∀ (ids : List Int) (old : List Menuitem) (fresh : Nat),
      (old.map Menuitem.tag).Nodup →
      ∀ c ∈ old, c.id ∉ ids → c ∈ (reconcileSpec fresh ids old).2.1 := by
  intro ids
  induction ids with
  | nil => intro old fresh _ c hc _; exact hc
  | cons id rest ih =>
    intro old fresh htag c hc hnid
    have hnid0 : c.id ≠ id := fun he => hnid (by rw [he]; exact List.mem_cons_self _ _)
    have hnidr : c.id ∉ rest := fun hr => hnid (List.mem_cons_of_mem _ hr)
    simp only [reconcileSpec]
    cases hfind : old.find? (fun mi => mi.id == id) with
    | some c0 =>
      have hc0id : c0.id = id := by simpa using List.find?_some hfind
      have hc0 : c0 ∈ old := List.mem_of_find?_eq_some hfind
      have hne : c ≠ c0 := fun he => hnid0 (by rw [he, hc0id])
      have hnetag : (c.tag == c0.tag) = false := by
        simp only [beq_eq_false_iff_ne, Ne]
        intro he
        exact hne (List.inj_on_of_nodup_map htag hc hc0 he)
      have hsub : List.Sublist (old.eraseP (fun mi => mi.tag == c0.tag)) old :=
        List.eraseP_sublist old
      exact ih _ fresh (List.Nodup.sublist (List.Sublist.map _ hsub) htag)
        c (mem_eraseP_of_not _ old c hc hnetag) hnidr
    | none => exact ih old (fresh + 1) htag c hc hnidr

/-- An existing child whose id a remote id mentions leaves the unmatched
work list. -/
theorem spec_matched_not_in_oldLeft :
    ∀ (ids : List Int) (old : List Menuitem) (fresh : Nat),
      (old.map Menuitem.id).Nodup → (old.map Menuitem.tag).Nodup →
      ∀ c ∈ old, c.id ∈ ids → c ∉ (reconcileSpec fresh ids old).2.1 := by
  intro ids
  induction ids with
  | nil => intro old fresh _ _ c _ h; simp at h
  | cons id rest ih =>
    intro old fresh hid htag c hc hcid
    simp only [reconcileSpec]
    by_cases hc0 : c.id = id
    · have hfind : old.find? (fun mi => mi.id == id) = some c := by
        have := find?_key_eq_of_mem_nodup Menuitem.id old c hid hc
        rwa [hc0] at this
      simp only [hfind]
      have hnotmem : c ∉ old.eraseP (fun mi => mi.tag == c.tag) :=
        not_mem_eraseP_key_self Menuitem.tag old c htag hc
      intro hmem
      exact hnotmem (List.Sublist.mem hmem (spec_oldLeft_sublist rest _ fresh))
    · have hcidr : c.id ∈ rest := by
        rcases List.mem_cons.mp hcid with h | h
        · exact absurd h hc0
        · exact h
      cases hfind : old.find? (fun mi => mi.id == id) with
      | some c0 =>
        have hc0id : c0.id = id := by simpa using List.find?_some hfind
        have hc0mem : c0 ∈ old := List.mem_of_find?_eq_some hfind
        have hne : c ≠ c0 := fun he => hc0 (by rw [he, hc0id])
        have hnetag : (c.tag == c0.tag) = false := by
          simp only [beq_eq_false_iff_ne, Ne]
          intro he
          exact hne (List.inj_on_of_nodup_map htag hc hc0mem he)
        have hsub : List.Sublist (old.eraseP (fun mi => mi.tag == c0.tag)) old :=
          List.eraseP_sublist old
        exact ih _ fresh (List.Nodup.sublist (List.Sublist.map _ hsub) hid)
          (List.Nodup.sublist (List.Sublist.map _ hsub) htag)
          c (mem_eraseP_of_not _ old c hc hnetag) hcidr
      | none => exact ih old (fresh + 1) hid htag c hc hcidr

/-- The child pass queues only property fetches, never deletions. -/
theorem spec_no_deleted :
    ∀ (ids : List Int) (old : List Menuitem) (fresh : Nat) (t : Nat),
      Effect.deleted t ∉ (reconcileSpec fresh ids old).2.2.2 := by
  intro ids
  induction ids with
  | nil => intro old fresh t h; simp [reconcileSpec] at h
  | cons id rest ih =>
    intro old fresh t
    simp only [reconcileSpec]
    cases hfind : old.find? (fun mi => mi.id == id) with
    | some c0 =>
      intro h
      rcases List.mem_cons.mp h with h | h
      · exact Effect.noConfusion h
      · exact ih _ fresh t h
    | none =>
      intro h
      rcases List.mem_cons.mp h with h | h
      · exact Effect.noConfusion h
      · exact ih old (fresh + 1) t h

/-- Every reconciled child either is a recycled existing child whose id the
remote description mentions, or is freshly built with no children. -/
theorem spec_mids_mem :
    ∀ (ids : List Int) (old : List Menuitem) (fresh : Nat) (mi : Menuitem),
      mi ∈ (reconcileSpec fresh ids old).2.2.1 →
      (mi ∈ old ∧ mi.id ∈ ids) ∨ (fresh ≤ mi.tag ∧ mi.children = []) := by
  intro ids
  induction ids with
  | nil => intro old fresh mi h; simp [reconcileSpec] at h
  | cons id rest ih =>
    intro old fresh mi
    simp only [reconcileSpec]
    cases hfind : old.find? (fun mi => mi.id == id) with
    | some c0 =>
      intro h
      rcases List.mem_cons.mp h with h | h
      · subst h
        refine Or.inl ⟨List.mem_of_find?_eq_some hfind, ?_⟩
        rw [show mi.id = id from by simpa using List.find?_some hfind]
        exact List.mem_cons_self id rest
      · rcases ih _ fresh mi h with ⟨hmem, hid⟩ | hf
        · exact Or.inl ⟨List.Sublist.mem hmem (List.eraseP_sublist old),
            List.mem_cons_of_mem _ hid⟩
        · exact Or.inr hf
    | none =>
      intro h
      rcases List.mem_cons.mp h with h | h
      · subst h
        exact Or.inr ⟨Nat.le_refl _, rfl⟩
      · rcases ih old (fresh + 1) mi h with ⟨hmem, hid⟩ | hf
        · exact Or.inl ⟨hmem, List.mem_cons_of_mem _ hid⟩
        · exact Or.inr ⟨Nat.le_of_succ_le hf.1, hf.2⟩

/-- A node without a valid id contributes no remote id. -/
theorem xmlValidIds_cons_junk {c : XmlNode} (h : parse_node_get_id c < 0)
    (rest : List XmlNode) : xmlValidIds (c :: rest) = xmlValidIds rest := by
  simp [xmlValidIds, List.filter_cons, h]

/-- A node with a valid id contributes it in front. -/
theorem xmlValidIds_cons_valid {c : XmlNode} (h : ¬ parse_node_get_id c < 0)
    (rest : List XmlNode) :
    xmlValidIds (c :: rest) = parse_node_get_id c :: xmlValidIds rest := by
  simp [xmlValidIds, List.filter_cons, h]

/-- The child loop of `parse_layout_xml`, characterized against
`reconcileSpec`: walking the XML children with the reconciled prefix
`done` already in place keeps the child list as prefix ++ reconciled ++
still-unmatched and produces exactly the specified effects. -/
theorem loop_spec :
    ∀ (kids : List XmlNode) (done oldRest : List Menuitem) (fresh : Nat),
      ((done ++ oldRest).map Menuitem.tag).Nodup →
      (∀ mi ∈ done ++ oldRest, mi.tag < fresh) →
      parse_layout_children_loop kids done.length fresh oldRest
          (done ++ oldRest) =
        ((reconcileSpec fresh (xmlValidIds kids) oldRest).1,
         (reconcileSpec fresh (xmlValidIds kids) oldRest).2.1,
         done ++ (reconcileSpec fresh (xmlValidIds kids) oldRest).2.2.1 ++
           (reconcileSpec fresh (xmlValidIds kids) oldRest).2.1,
         (reconcileSpec fresh (xmlValidIds kids) oldRest).2.2.2) := by
  intro kids
  induction kids with
  | nil =>
    intro done oldRest fresh _ _
    simp [parse_layout_children_loop, xmlValidIds, reconcileSpec]
  | cons c rest ih =>
    intro done oldRest fresh hnodup hlt
    by_cases hc : parse_node_get_id c < 0
    · rw [xmlValidIds_cons_junk hc]
      simp only [parse_layout_children_loop]
      rw [if_pos hc]
      exact ih done oldRest fresh hnodup hlt
    · rw [xmlValidIds_cons_valid hc]
      have hdisj : List.Disjoint (done.map Menuitem.tag)
          (oldRest.map Menuitem.tag) := by
        refine List.disjoint_of_nodup_append ?_
        simpa using hnodup
      have hortag : (oldRest.map Menuitem.tag).Nodup := by
        have := hnodup
        rw [List.map_append, List.nodup_append] at this
        exact this.2.1
      cases hfind : oldRest.find? (fun mi => mi.id == parse_node_get_id c) with
      | some cs_mi =>
        have hmem : cs_mi ∈ oldRest := List.mem_of_find?_eq_some hfind
        have hdone_ne : ∀ x ∈ done, ¬ ((fun mi => mi.tag == cs_mi.tag) x = true) := by
          intro x hx he
          refine hdisj (List.mem_map.mpr ⟨x, hx, rfl⟩) ?_
          rw [beq_iff_eq.mp he]
          exact List.mem_map.mpr ⟨cs_mi, hmem, rfl⟩
        have hfindtag : oldRest.find? (fun mi => mi.tag == cs_mi.tag) =
            some cs_mi :=
          find?_key_eq_of_mem_nodup Menuitem.tag oldRest cs_mi hortag hmem
        have hreorder : child_reorder (done ++ oldRest) cs_mi.tag done.length =
            (done ++ [cs_mi]) ++
              oldRest.eraseP (fun mi => mi.tag == cs_mi.tag) := by
          unfold child_reorder
          rw [find?_append_of_not _ done oldRest hdone_ne, hfindtag]
          rw [eraseP_append_of_not _ done oldRest hdone_ne]
          show List.insertIdx done.length cs_mi
              (done ++ List.eraseP (fun mi => mi.tag == cs_mi.tag) oldRest) =
            done ++ [cs_mi] ++ List.eraseP (fun mi => mi.tag == cs_mi.tag) oldRest
          rw [insertIdx_append_self, List.append_assoc, List.singleton_append]
        -- the erased element is `cs_mi` itself, so the two lists permute
        have hperm : List.Perm (done ++ oldRest)
            ((done ++ [cs_mi]) ++
              oldRest.eraseP (fun mi => mi.tag == cs_mi.tag)) := by
          obtain ⟨b, l1, l2, hnb, hpb, hsplit, herase⟩ :=
            @List.exists_of_eraseP Menuitem (fun mi => mi.tag == cs_mi.tag)
              oldRest cs_mi hmem (beq_self_eq_true cs_mi.tag)
          have hb : b = cs_mi := by
            refine List.inj_on_of_nodup_map hortag ?_ hmem (beq_iff_eq.mp hpb)
            rw [hsplit]
            exact List.mem_append.mpr (Or.inr (List.mem_cons_self b l2))
          rw [herase, hsplit, hb]
          have hshape : done ++ [cs_mi] ++ (l1 ++ l2) =
              done ++ (cs_mi :: (l1 ++ l2)) := by simp
          rw [hshape]
          exact List.Perm.append_left done List.perm_middle
        have hnodup' : (((done ++ [cs_mi]) ++
            oldRest.eraseP (fun mi => mi.tag == cs_mi.tag)).map
              Menuitem.tag).Nodup :=
          (List.Perm.nodup_iff (List.Perm.map Menuitem.tag hperm)).mp hnodup
        have hlt' : ∀ mi ∈ (done ++ [cs_mi]) ++
            oldRest.eraseP (fun mi => mi.tag == cs_mi.tag),
            mi.tag < fresh := by
          intro mi hmi
          exact hlt mi ((List.Perm.mem_iff hperm).mpr hmi)
        have hlen1 : (done ++ [cs_mi]).length = done.length + 1 := by simp
        have hih := ih (done ++ [cs_mi])
          (oldRest.eraseP (fun mi => mi.tag == cs_mi.tag)) fresh hnodup' hlt'
        rw [hlen1] at hih
        have hstep : parse_layout_children_loop (c :: rest) done.length fresh
            oldRest (done ++ oldRest) =
            ((parse_layout_children_loop rest (done.length + 1) fresh
                (oldRest.eraseP (fun mi => mi.tag == cs_mi.tag))
                (child_reorder (done ++ oldRest) cs_mi.tag done.length)).1,
             (parse_layout_children_loop rest (done.length + 1) fresh
                (oldRest.eraseP (fun mi => mi.tag == cs_mi.tag))
                (child_reorder (done ++ oldRest) cs_mi.tag done.length)).2.1,
             (parse_layout_children_loop rest (done.length + 1) fresh
                (oldRest.eraseP (fun mi => mi.tag == cs_mi.tag))
                (child_reorder (done ++ oldRest) cs_mi.tag done.length)).2.2.1,
             Effect.fetchRefresh (parse_node_get_id c) cs_mi.tag ::
               (parse_layout_children_loop rest (done.length + 1) fresh
                  (oldRest.eraseP (fun mi => mi.tag == cs_mi.tag))
                  (child_reorder (done ++ oldRest) cs_mi.tag done.length)).2.2.2) := by
          simp only [parse_layout_children_loop]
          rw [if_neg hc, hfind]
        rw [hstep, hreorder, hih]
        simp only [reconcileSpec, hfind]
        simp [List.append_assoc]
      | none =>
        have hfreshmem : (Menuitem.mk fresh (parse_node_get_id c) []).tag ∉
            (done ++ oldRest).map Menuitem.tag := by
          intro hmemf
          rcases List.mem_map.mp hmemf with ⟨mi, hmi, htagmi⟩
          have := hlt mi hmi
          rw [htagmi] at this
          simp at this
        have hinsert : child_add_position (done ++ oldRest)
            (Menuitem.mk fresh (parse_node_get_id c) []) done.length =
            (done ++ [Menuitem.mk fresh (parse_node_get_id c) []]) ++ oldRest := by
          unfold child_add_position
          rw [insertIdx_append_self, List.append_assoc, List.singleton_append]
        have hperm : List.Perm
            ((done ++ [Menuitem.mk fresh (parse_node_get_id c) []]) ++ oldRest)
            (Menuitem.mk fresh (parse_node_get_id c) [] :: (done ++ oldRest)) := by
          have hshape2 : (done ++ [Menuitem.mk fresh (parse_node_get_id c) []]) ++
              oldRest =
              done ++ Menuitem.mk fresh (parse_node_get_id c) [] :: oldRest := by
            simp
          rw [hshape2]
          exact List.perm_middle
        have hnodup' : (((done ++ [Menuitem.mk fresh (parse_node_get_id c) []]) ++
            oldRest).map Menuitem.tag).Nodup := by
          refine (List.Perm.nodup_iff (List.Perm.map Menuitem.tag hperm)).mpr ?_
          simp only [List.map_cons, List.nodup_cons]
          exact ⟨hfreshmem, hnodup⟩
        have hlt' : ∀ mi ∈ (done ++ [Menuitem.mk fresh (parse_node_get_id c) []]) ++
            oldRest, mi.tag < fresh + 1 := by
          intro mi hmi
          rcases List.mem_cons.mp ((List.Perm.mem_iff hperm).mp hmi) with h | h
          · rw [h]
            simp
          · exact Nat.lt_succ_of_lt (hlt mi h)
        have hlen1 : (done ++ [Menuitem.mk fresh (parse_node_get_id c) []]).length =
            done.length + 1 := by simp
        have hih := ih (done ++ [Menuitem.mk fresh (parse_node_get_id c) []])
          oldRest (fresh + 1) hnodup' hlt'
        rw [hlen1] at hih
        have hstep : parse_layout_children_loop (c :: rest) done.length fresh
            oldRest (done ++ oldRest) =
            ((parse_layout_children_loop rest (done.length + 1) (fresh + 1)
                oldRest
                (child_add_position (done ++ oldRest)
                  (Menuitem.mk fresh (parse_node_get_id c) []) done.length)).1,
             (parse_layout_children_loop rest (done.length + 1) (fresh + 1)
                oldRest
                (child_add_position (done ++ oldRest)
                  (Menuitem.mk fresh (parse_node_get_id c) []) done.length)).2.1,
             (parse_layout_children_loop rest (done.length + 1) (fresh + 1)
                oldRest
                (child_add_position (done ++ oldRest)
                  (Menuitem.mk fresh (parse_node_get_id c) []) done.length)).2.2.1,
             Effect.fetchNew (parse_node_get_id c) fresh ::
               (parse_layout_children_loop rest (done.length + 1) (fresh + 1)
                  oldRest
                  (child_add_position (done ++ oldRest)
                    (Menuitem.mk fresh (parse_node_get_id c) []) done.length)).2.2.2) := by
          simp only [parse_layout_children_loop]
          rw [if_neg hc, hfind]
          rfl
        rw [hstep, hinsert, hih]
        simp only [reconcileSpec, hfind]
        simp [List.append_assoc]

/-- Whatever comes out of an insertion was inserted or was there. -/
theorem mem_of_mem_insertIdx {α : Type} {x mi : α} :
    ∀ {n : Nat} {l : List α}, mi ∈ List.insertIdx n x l → mi = x ∨ mi ∈ l := by
  intro n
  induction n with
  | zero =>
    intro l h
    rw [List.insertIdx_zero] at h
    exact List.mem_cons.mp h
  | succ n ih =>
    intro l h
    cases l with
    | nil =>
      rw [List.insertIdx_succ_nil] at h
      simp at h
    | cons a rest =>
      rw [List.insertIdx_succ_cons] at h
      rcases List.mem_cons.mp h with h | h
      · exact Or.inr (by rw [h]; exact List.mem_cons_self a rest)
      · rcases ih h with h | h
        · exact Or.inl h
        · exact Or.inr (List.mem_cons_of_mem a h)

/-- The child loop queues no deletions. -/
theorem loop_no_deleted :
    ∀ (kids : List XmlNode) (pos fresh : Nat) (old cur : List Menuitem)
      (t : Nat),
      Effect.deleted t ∉
        (parse_layout_children_loop kids pos fresh old cur).2.2.2 := by
  intro kids
  induction kids with
  | nil => intro pos fresh old cur t h; simp [parse_layout_children_loop] at h
  | cons c rest ih =>
    intro pos fresh old cur t
    simp only [parse_layout_children_loop]
    by_cases hc : parse_node_get_id c < 0
    · rw [if_pos hc]
      exact ih pos fresh old cur t
    · rw [if_neg hc]
      cases hfind : old.find? (fun mi => mi.id == parse_node_get_id c) with
      | some cs_mi =>
        intro h
        rcases List.mem_cons.mp h with h | h
        · exact Effect.noConfusion h
        · exact ih _ _ _ _ t h
      | none =>
        intro h
        rcases List.mem_cons.mp h with h | h
        · exact Effect.noConfusion h
        · exact ih _ _ _ _ t h

/-- The unmatched work list only shrinks. -/
theorem loop_oldchildren_sublist :
    ∀ (kids : List XmlNode) (pos fresh : Nat) (old cur : List Menuitem),
      List.Sublist (parse_layout_children_loop kids pos fresh old cur).2.1
        old := by
  intro kids
  induction kids with
  | nil =>
    intro pos fresh old cur
    simp only [parse_layout_children_loop]
    exact List.Sublist.refl old
  | cons c rest ih =>
    intro pos fresh old cur
    simp only [parse_layout_children_loop]
    by_cases hc : parse_node_get_id c < 0
    · rw [if_pos hc]
      exact ih pos fresh old cur
    · rw [if_neg hc]
      cases hfind : old.find? (fun mi => mi.id == parse_node_get_id c) with
      | some cs_mi =>
        exact List.Sublist.trans (ih _ _ _ _) (List.eraseP_sublist old)
      | none => exact ih _ _ _ _

/-- Every child produced by the loop was already a child or is freshly
built with no children. -/
theorem loop_cur_mem :
    ∀ (kids : List XmlNode) (pos fresh : Nat) (old cur : List Menuitem)
      (mi : Menuitem),
      mi ∈ (parse_layout_children_loop kids pos fresh old cur).2.2.1 →
      mi ∈ cur ∨ mi.children = [] := by
  intro kids
  induction kids with
  | nil =>
    intro pos fresh old cur mi h
    exact Or.inl h
  | cons c rest ih =>
    intro pos fresh old cur mi
    simp only [parse_layout_children_loop]
    by_cases hc : parse_node_get_id c < 0
    · rw [if_pos hc]
      exact ih pos fresh old cur mi
    · rw [if_neg hc]
      cases hfind : old.find? (fun mi => mi.id == parse_node_get_id c) with
      | some cs_mi =>
        intro h
        rcases ih _ _ _ _ mi h with h | h
        · unfold child_reorder at h
          cases hf : (cur.find? (fun mi => mi.tag == cs_mi.tag)) with
          | none =>
            rw [hf] at h
            exact Or.inl h
          | some x =>
            rw [hf] at h
            rcases mem_of_mem_insertIdx h with h | h
            · exact Or.inl (by rw [h]; exact List.mem_of_find?_eq_some hf)
            · exact Or.inl (List.Sublist.mem h (List.eraseP_sublist cur))
        · exact Or.inr h
      | none =>
        intro h
        rcases ih _ _ _ _ mi h with h | h
        · unfold child_add_position at h
          rcases mem_of_mem_insertIdx h with h | h
          · refine Or.inr ?_
            rw [h]
            simp [parse_layout_new_child]
          · exact Or.inl h
        · exact Or.inr h

/-- Pruning only shrinks the child list. -/
theorem foldl_child_delete_sublist :
    ∀ (L acc : List Menuitem),
      List.Sublist (L.foldl (fun c mi => child_delete c mi.tag) acc) acc := by
  intro L
  induction L with
  | nil => intro acc; exact List.Sublist.refl acc
  | cons x rest ih =>
    intro acc
    simp only [List.foldl_cons]
    exact List.Sublist.trans (ih _) (List.eraseP_sublist acc)

mutual
/-- Reconciliation of one node only ever deletes nodes that already lived
below it. -/
theorem parse_layout_xml_deleted_scope :
    ∀ (node : XmlNode) (fresh : Nat) (item : Menuitem) (parent : Option Int)
      (res : Menuitem × Nat × List Effect) (t : Nat),
      parse_layout_xml fresh node item parent = some res →
      Effect.deleted t ∈ res.2.2 → t ∈ Menuitem.tagsList item.children := by
  intro node fresh item parent res t hparse hmem
  cases node with
  | junk => exact Option.noConfusion hparse
  | menu id kids =>
    simp only [parse_layout_xml] at hparse
    by_cases h0 : id < 0
    · rw [if_pos h0] at hparse
      exact Option.noConfusion hparse
    · rw [if_neg h0] at hparse
      by_cases h1 : id ≠ item.id
      · rw [if_pos h1] at hparse
        exact Option.noConfusion hparse
      · rw [if_neg h1] at hparse
        have hres := (Option.some.injEq _ _).mp hparse
        rw [← hres] at hmem
        simp only [] at hmem
        rcases List.mem_append.mp hmem with hm | hm
        · rcases List.mem_append.mp hm with hm2 | hm2
          · rcases List.mem_append.mp hm2 with hm3 | hm3
            · exact absurd hm3 (loop_no_deleted kids 0 fresh item.children
                item.children t)
            · rcases List.mem_map.mp hm3 with ⟨mi, hmi, hde⟩
              have hmi' : mi ∈ item.children :=
                List.Sublist.mem hmi
                  (loop_oldchildren_sublist kids 0 fresh item.children
                    item.children)
              have : t = mi.tag := by
                injection hde.symm
              rw [this]
              exact mem_tagsList_of_mem hmi' (Menuitem.tag_mem_tags mi)
          · exfalso
            cases parent with
            | none => simp at hm2
            | some pid =>
              by_cases hp : pid = 0
              · simp [hp] at hm2
              · simp [hp] at hm2
        · obtain ⟨mi, hmimem, hmi⟩ :=
            parse_layout_recurse_deleted_scope kids _ _ item.id t hm
          have hmi2 : mi ∈ (parse_layout_children_loop kids 0 fresh
              item.children item.children).2.2.1 :=
            List.Sublist.mem hmimem (foldl_child_delete_sublist _ _)
          rcases loop_cur_mem kids 0 fresh item.children item.children mi hmi2
            with h | h
          · exact mem_tagsList_of_mem h (tags_children_subset hmi)
          · rw [h] at hmi
            simp [Menuitem.tagsList] at hmi

/-- The pairwise recursion only deletes nodes below the children it walks
into. -/
theorem parse_layout_recurse_deleted_scope :
    ∀ (kids : List XmlNode) (fresh : Nat) (mis : List Menuitem) (pid : Int)
      (t : Nat),
      Effect.deleted t ∈ (parse_layout_recurse fresh kids mis pid).2.2 →
      ∃ mi ∈ mis, t ∈ Menuitem.tagsList mi.children := by
  intro kids fresh mis pid t hmem
  cases kids with
  | nil =>
    simp [parse_layout_recurse] at hmem
  | cons c rest =>
    cases mis with
    | nil =>
      simp [parse_layout_recurse] at hmem
    | cons mi mrest =>
      simp only [parse_layout_recurse] at hmem
      by_cases hc : parse_node_get_id c < 0
      · rw [if_pos hc] at hmem
        exact parse_layout_recurse_deleted_scope rest fresh (mi :: mrest) pid
          t hmem
      · rw [if_neg hc] at hmem
        cases hx : parse_layout_xml fresh c mi (some pid) with
        | none =>
          rw [hx] at hmem
          obtain ⟨mi', hmi', ht⟩ :=
            parse_layout_recurse_deleted_scope rest fresh mrest pid t hmem
          exact ⟨mi', List.mem_cons_of_mem mi hmi', ht⟩
        | some r =>
          rw [hx] at hmem
          obtain ⟨mi2, fresh2, effs2⟩ := r
          rcases List.mem_append.mp hmem with hm | hm
          · exact ⟨mi, List.mem_cons_self mi mrest,
              parse_layout_xml_deleted_scope c fresh mi (some pid)
                (mi2, fresh2, effs2) t hx hm⟩
          · obtain ⟨mi', hmi', ht⟩ :=
              parse_layout_recurse_deleted_scope rest fresh2 mrest pid t hm
            exact ⟨mi', List.mem_cons_of_mem mi hmi', ht⟩
end

/-- Pruning the unmatched leftovers from reconciled ++ leftovers leaves
exactly the reconciled children. -/
theorem prune_exact :
    ∀ (oldLeft mids : List Menuitem),
      (∀ mi ∈ mids, ∀ ol ∈ oldLeft, mi.tag ≠ ol.tag) →
      (oldLeft.map Menuitem.tag).Nodup →
      oldLeft.foldl (fun c mi => child_delete c mi.tag) (mids ++ oldLeft) =
        mids := by
  intro oldLeft
  induction oldLeft with
  | nil => intro mids _ _; simp
  | cons ol rest ih =>
    intro mids hdm hnodup
    simp only [List.foldl_cons]
    have hnm : ∀ x ∈ mids, ¬ ((fun c => c.tag == ol.tag) x = true) := by
      intro x hx he
      exact hdm x hx ol (List.mem_cons_self ol rest) (beq_iff_eq.mp he)
    have hstep : child_delete (mids ++ ol :: rest) ol.tag = mids ++ rest := by
      unfold child_delete
      rw [eraseP_append_of_not _ mids (ol :: rest) hnm]
      simp [List.eraseP_cons]
    rw [hstep]
    have hn : (∀ x ∈ rest, ¬ x.tag = ol.tag) ∧
        (rest.map Menuitem.tag).Nodup := by simpa using hnodup
    refine ih mids ?_ hn.2
    intro mi hmi ol' hol'
    exact hdm mi hmi ol' (List.mem_cons_of_mem ol hol')

/-- Reconciliation never changes a node's own identity. -/
theorem parse_layout_xml_preserves (fresh : Nat) (node : XmlNode)
    (item : Menuitem) (parent : Option Int)
    (res : Menuitem × Nat × List Effect)
    (h : parse_layout_xml fresh node item parent = some res) :
    res.1.tag = item.tag ∧ res.1.id = item.id := by
  cases node with
  | junk => exact Option.noConfusion h
  | menu id kids =>
    simp only [parse_layout_xml] at h
    by_cases h0 : id < 0
    · rw [if_pos h0] at h
      exact Option.noConfusion h
    · rw [if_neg h0] at h
      by_cases h1 : id ≠ item.id
      · rw [if_pos h1] at h
        exact Option.noConfusion h
      · rw [if_neg h1] at h
        rw [Option.some.injEq] at h
        rw [← h]
        simp

/-- The pairwise recursion preserves each child's identity and remote id
(in order). -/
theorem parse_layout_recurse_maps :
    ∀ (kids : List XmlNode) (fresh : Nat) (mis : List Menuitem) (pid : Int),
      (parse_layout_recurse fresh kids mis pid).2.1.map Menuitem.tag =
          mis.map Menuitem.tag ∧
      (parse_layout_recurse fresh kids mis pid).2.1.map Menuitem.id =
          mis.map Menuitem.id := by
  intro kids
  induction kids with
  | nil =>
    intro fresh mis pid
    simp [parse_layout_recurse]
  | cons c rest ih =>
    intro fresh mis pid
    cases mis with
    | nil => simp [parse_layout_recurse]
    | cons mi mrest =>
      simp only [parse_layout_recurse]
      by_cases hc : parse_node_get_id c < 0
      · rw [if_pos hc]
        exact ih fresh (mi :: mrest) pid
      · rw [if_neg hc]
        cases hx : parse_layout_xml fresh c mi (some pid) with
        | none =>
          have hr := ih fresh mrest pid
          simp [hr.1, hr.2]
        | some r =>
          obtain ⟨mi2, fresh2, effs2⟩ := r
          have hp := parse_layout_xml_preserves fresh c mi (some pid)
            (mi2, fresh2, effs2) hx
          have hr := ih fresh2 mrest pid
          simp [hr.1, hr.2, hp.1, hp.2]

/-- `getD` over a mapped list, within bounds. -/
theorem getD_map_general {α β : Type} (f : α → β) (d : α) :
    ∀ (L : List α) (i : Nat), i < L.length →
      (L.map f).getD i (f d) = f (L.getD i d) := by
  intro L
  induction L with
  | nil =>
    intro i h
    simp at h
  | cons x xs ihx =>
    intro i h
    cases i with
    | zero => simp [List.getD]
    | succ n =>
      have h' : n < xs.length := by
        rw [List.length_cons] at h
        omega
      simpa [List.getD] using ihx n h'

/-- C1: reconciling a node against its remote description recycles by id —
each remote child id with a match among the existing children keeps that
very node instance at its position in remote order with a property refresh
queued and is never deleted anywhere in the pass; each unmatched remote id
gets a freshly built node at its index with its initial fetch queued; and
every existing child whose id the remote description does not mention is
deleted. -/
theorem C1_reconcile_recycles_by_id
    (fresh : Nat) (item : Menuitem) (kids : List XmlNode) (parent : Option Int)
    (item2 : Menuitem) (fresh2 : Nat) (effs : List Effect)
    (hroot : ¬ item.id < 0)
    (hwf : (Menuitem.tags item).Nodup)
    (hfr : ∀ t ∈ Menuitem.tags item, t < fresh)
    (hids : (item.children.map Menuitem.id).Nodup)
    (hxids : (xmlValidIds kids).Nodup)
    (hparse : parse_layout_xml fresh (XmlNode.menu item.id kids) item parent =
      some (item2, fresh2, effs)) :
    item2.children.map Menuitem.id = xmlValidIds kids ∧
    (∀ (j : Nat) (h : j < (xmlValidIds kids).length) (c : Menuitem),
      c ∈ item.children → c.id = (xmlValidIds kids).get ⟨j, h⟩ →
      (item2.children.getD j (Menuitem.mk 0 0 [])).tag = c.tag ∧
      Effect.fetchRefresh c.id c.tag ∈ effs ∧
      Effect.deleted c.tag ∉ effs) ∧
    (∀ (j : Nat) (h : j < (xmlValidIds kids).length),
      (xmlValidIds kids).get ⟨j, h⟩ ∉ item.children.map Menuitem.id →
      fresh ≤ (item2.children.getD j (Menuitem.mk 0 0 [])).tag ∧
      Effect.fetchNew ((xmlValidIds kids).get ⟨j, h⟩)
        ((item2.children.getD j (Menuitem.mk 0 0 [])).tag) ∈ effs) ∧
    (∀ c ∈ item.children, c.id ∉ xmlValidIds kids →
      Effect.deleted c.tag ∈ effs) := by
  have htagsL : (Menuitem.tagsList item.children).Nodup := by
    cases item with
    | mk t i cs =>
      simp only [Menuitem.tags] at hwf
      simp only [Menuitem.children_mk]
      exact (List.nodup_cons.mp hwf).2
  have hctags : (item.children.map Menuitem.tag).Nodup :=
    List.Nodup.sublist (map_tag_sublist_tagsList item.children) htagsL
  have hclt : ∀ mi ∈ item.children, mi.tag < fresh := by
    intro mi hmi
    exact hfr _ (tags_children_subset
      (mem_tagsList_of_mem hmi (Menuitem.tag_mem_tags mi)))
  have hloop := loop_spec kids [] item.children fresh
    (by simpa using hctags)
    (by
      intro mi hmi
      rw [List.nil_append] at hmi
      exact hclt mi hmi)
  simp only [List.nil_append, List.length_nil] at hloop
  have hdisj_mo : ∀ mi ∈ (reconcileSpec fresh (xmlValidIds kids)
      item.children).2.2.1,
      ∀ ol ∈ (reconcileSpec fresh (xmlValidIds kids) item.children).2.1,
      mi.tag ≠ ol.tag := by
    intro mi hmi ol hol
    have holc : ol ∈ item.children :=
      List.Sublist.mem hol (spec_oldLeft_sublist _ _ _)
    rcases spec_mids_mem (xmlValidIds kids) item.children fresh mi hmi with
      ⟨hmic, hmiid⟩ | ⟨hge, _⟩
    · have hmino : mi ∉ (reconcileSpec fresh (xmlValidIds kids)
          item.children).2.1 :=
        spec_matched_not_in_oldLeft _ _ _ hids hctags mi hmic hmiid
      intro he
      have heq : mi = ol := List.inj_on_of_nodup_map hctags hmic holc he
      rw [heq] at hmino
      exact hmino hol
    · intro he
      have hlt := hclt ol holc
      rw [← he] at hlt
      omega
  have hOLnodup : ((reconcileSpec fresh (xmlValidIds kids)
      item.children).2.1.map Menuitem.tag).Nodup :=
    List.Nodup.sublist (List.Sublist.map _ (spec_oldLeft_sublist _ _ _)) hctags
  have hprune := prune_exact
    (reconcileSpec fresh (xmlValidIds kids) item.children).2.1
    (reconcileSpec fresh (xmlValidIds kids) item.children).2.2.1
    hdisj_mo hOLnodup
  simp only [parse_layout_xml] at hparse
  rw [if_neg hroot] at hparse
  rw [if_neg (show ¬ item.id ≠ item.id from fun hx => hx rfl)] at hparse
  rw [hloop] at hparse
  simp only [] at hparse
  rw [hprune] at hparse
  rw [Option.some.injEq] at hparse
  have hitem2 : item2 = Menuitem.mk item.tag item.id
      (parse_layout_recurse
        (reconcileSpec fresh (xmlValidIds kids) item.children).1 kids
        (reconcileSpec fresh (xmlValidIds kids) item.children).2.2.1
        item.id).2.1 := by
    have hfst := congrArg Prod.fst hparse
    simpa using hfst.symm
  have heffs : effs =
      (reconcileSpec fresh (xmlValidIds kids) item.children).2.2.2 ++
      ((reconcileSpec fresh (xmlValidIds kids) item.children).2.1.map
        (fun mi => Effect.deleted mi.tag)) ++
      rootFlushEffs parent ++
      (parse_layout_recurse
        (reconcileSpec fresh (xmlValidIds kids) item.children).1 kids
        (reconcileSpec fresh (xmlValidIds kids) item.children).2.2.1
        item.id).2.2 := by
    have hsnd := congrArg (fun p =>
      (p : Menuitem × Nat × List Effect).2.2) hparse
    cases parent with
    | none => simpa [rootFlushEffs] using hsnd.symm
    | some pid => simpa [rootFlushEffs] using hsnd.symm
  have hch : item2.children =
      (parse_layout_recurse
        (reconcileSpec fresh (xmlValidIds kids) item.children).1 kids
        (reconcileSpec fresh (xmlValidIds kids) item.children).2.2.1
        item.id).2.1 := by
    rw [hitem2]
    simp
  have hmaps := parse_layout_recurse_maps kids
    (reconcileSpec fresh (xmlValidIds kids) item.children).1
    (reconcileSpec fresh (xmlValidIds kids) item.children).2.2.1 item.id
  have hmapid : item2.children.map Menuitem.id = xmlValidIds kids := by
    rw [hch, hmaps.2, spec_mids_ids]
  have hmaptag : item2.children.map Menuitem.tag =
      (reconcileSpec fresh (xmlValidIds kids) item.children).2.2.1.map
        Menuitem.tag := by
    rw [hch, hmaps.1]
  have hlenmids : (reconcileSpec fresh (xmlValidIds kids)
      item.children).2.2.1.length = (xmlValidIds kids).length := by
    have hmi := spec_mids_ids (xmlValidIds kids) item.children fresh
    have := congrArg List.length hmi
    simpa using this
  have hlen2 : item2.children.length = (xmlValidIds kids).length := by
    have := congrArg List.length hmapid
    simpa using this
  have htagD : ∀ j, j < (xmlValidIds kids).length →
      (item2.children.getD j (Menuitem.mk 0 0 [])).tag =
      ((reconcileSpec fresh (xmlValidIds kids) item.children).2.2.1.getD j
        (Menuitem.mk 0 0 [])).tag := by
    intro j hj
    have h1 := getD_map_general Menuitem.tag (Menuitem.mk 0 0 [])
      item2.children j (by rw [hlen2]; exact hj)
    have h2 := getD_map_general Menuitem.tag (Menuitem.mk 0 0 [])
      (reconcileSpec fresh (xmlValidIds kids) item.children).2.2.1 j
      (by rw [hlenmids]; exact hj)
    rw [← h1, ← h2, hmaptag]
  have hflush_no_del : ∀ t : Nat, Effect.deleted t ∉ rootFlushEffs parent := by
    intro t hmem
    cases parent with
    | none => simp [rootFlushEffs] at hmem
    | some pid =>
      by_cases hp : pid = 0
      · simp [rootFlushEffs, hp] at hmem
      · simp [rootFlushEffs, hp] at hmem
  refine ⟨hmapid, ?_, ?_, ?_⟩
  · intro j h c hc hcid
    have hrec := spec_recycled (xmlValidIds kids) item.children fresh
      hids hctags hxids j h c hc hcid
    refine ⟨?_, ?_, ?_⟩
    · rw [htagD j h, hrec.1]
    · rw [heffs]
      exact List.mem_append.mpr (Or.inl (List.mem_append.mpr (Or.inl
        (List.mem_append.mpr (Or.inl hrec.2)))))
    · rw [heffs]
      intro hmem
      rcases List.mem_append.mp hmem with hm | hm
      · rcases List.mem_append.mp hm with hm2 | hm2
        · rcases List.mem_append.mp hm2 with hm3 | hm3
          · exact spec_no_deleted (xmlValidIds kids) item.children fresh
              c.tag hm3
          · rcases List.mem_map.mp hm3 with ⟨ol, holl, hde⟩
            have htageq : ol.tag = c.tag := by injection hde
            have hcin : c.id ∈ xmlValidIds kids := by
              rw [hcid]
              exact List.get_mem _ _ _
            have hcno : c ∉ (reconcileSpec fresh (xmlValidIds kids)
                item.children).2.1 :=
              spec_matched_not_in_oldLeft _ _ _ hids hctags c hc hcin
            have holc : ol ∈ item.children :=
              List.Sublist.mem holl (spec_oldLeft_sublist _ _ _)
            have heq : ol = c :=
              List.inj_on_of_nodup_map hctags holc hc htageq
            rw [heq] at holl
            exact hcno holl
        · exact hflush_no_del c.tag hm2
      · obtain ⟨mi, hmimids, htg⟩ :=
          parse_layout_recurse_deleted_scope kids _ _ item.id c.tag hm
        rcases spec_mids_mem (xmlValidIds kids) item.children fresh mi
          hmimids with ⟨hmic, _⟩ | ⟨_, hchempty⟩
        · exact tagsList_nodup_no_cross htagsL hc hmic htg
        · rw [hchempty] at htg
          simp [Menuitem.tagsList] at htg
  · intro j h habs
    have hnew := spec_new (xmlValidIds kids) item.children fresh j h habs
    refine ⟨?_, ?_⟩
    · rw [htagD j h]
      exact hnew.1
    · rw [htagD j h, heffs]
      exact List.mem_append.mpr (Or.inl (List.mem_append.mpr (Or.inl
        (List.mem_append.mpr (Or.inl hnew.2.2)))))
  · intro c hc hnid
    have hleft := spec_unmatched_in_oldLeft (xmlValidIds kids) item.children
      fresh hctags c hc hnid
    rw [heffs]
    refine List.mem_append.mpr (Or.inl (List.mem_append.mpr (Or.inl
      (List.mem_append.mpr (Or.inr ?_)))))
    exact List.mem_map.mpr ⟨c, hleft, rfl⟩

/-- Witness for C1: a root whose children carry ids 1 and 2 is reconciled
against a remote layout listing ids 2 and 3 — the id-2 node is recycled at
its new position with a property refresh queued and is never deleted, a
fresh node (tag 3, beyond every pre-existing tag) is built for id 3 with
its initial fetch queued, and the id-1 node is deleted. -/
theorem C1_reconcile_recycles_by_id_witness :
    (Menuitem.mk 0 0 [Menuitem.mk 2 2 [], Menuitem.mk 3 3 []]).children.map
        Menuitem.id =
      xmlValidIds [XmlNode.menu 2 [], XmlNode.menu 3 []] ∧
    ((Menuitem.mk 0 0 [Menuitem.mk 2 2 [],
        Menuitem.mk 3 3 []]).children.getD 0 (Menuitem.mk 0 0 [])).tag = 2 ∧
    Effect.fetchRefresh 2 2 ∈
      [Effect.fetchRefresh 2 2, Effect.fetchNew 3 3, Effect.deleted 1,
       Effect.flushProps, Effect.flushProps] ∧
    Effect.deleted 2 ∉
      [Effect.fetchRefresh 2 2, Effect.fetchNew 3 3, Effect.deleted 1,
       Effect.flushProps, Effect.flushProps] ∧
    3 ≤ ((Menuitem.mk 0 0 [Menuitem.mk 2 2 [],
        Menuitem.mk 3 3 []]).children.getD 1 (Menuitem.mk 0 0 [])).tag ∧
    Effect.fetchNew 3
      ((Menuitem.mk 0 0 [Menuitem.mk 2 2 [],
        Menuitem.mk 3 3 []]).children.getD 1 (Menuitem.mk 0 0 [])).tag ∈
      [Effect.fetchRefresh 2 2, Effect.fetchNew 3 3, Effect.deleted 1,
       Effect.flushProps, Effect.flushProps] ∧
    Effect.deleted 1 ∈
      [Effect.fetchRefresh 2 2, Effect.fetchNew 3 3, Effect.deleted 1,
       Effect.flushProps, Effect.flushProps] := by
  have h := C1_reconcile_recycles_by_id 3
    (Menuitem.mk 0 0 [Menuitem.mk 1 1 [], Menuitem.mk 2 2 []])
    [XmlNode.menu 2 [], XmlNode.menu 3 []] none
    (Menuitem.mk 0 0 [Menuitem.mk 2 2 [], Menuitem.mk 3 3 []]) 4
    [Effect.fetchRefresh 2 2, Effect.fetchNew 3 3, Effect.deleted 1,
     Effect.flushProps, Effect.flushProps]
    (by decide) (by decide) (by decide) (by decide) (by decide) (by rfl)
  have hrec := h.2.1 0 (by decide) (Menuitem.mk 2 2 [])
    (List.mem_cons_of_mem _ (List.mem_cons_self _ _)) (by decide)
  have hnew := h.2.2.1 1 (by decide) (by decide)
  have hdel := h.2.2.2 (Menuitem.mk 1 1 [])
    (List.mem_cons_self _ _) (by decide)
  exact ⟨h.1, hrec.1, hrec.2.1, hrec.2.2, hnew.1, hnew.2, hdel⟩

end Dbusmenu
